import Mathlib

/-!
Verification of the natural-language specification of
`zenoh-ext/src/advanced_subscriber.rs` (the advanced — reliable, ordered,
gap-filling — subscriber of zenoh) against a shallow embedding of its core
state machine.

The embedding translates, from the Rust source:
  - the per-source state `SourceState<T>` (`last_delivered`,
    `pending_queries`, `pending_samples : BTreeMap<T, Sample>`),
  - the global `State` (`global_pending_queries`, the maps of sequenced and
    timestamped source states, the `retransmission` flag, the miss-handler
    registry),
  - `handle_sample` (lines 410-475),
  - `seq_num_range` (lines 478-485) and its two call sites
    (`PeriodicQuery::run` line 509, the live retransmission trigger line 608),
  - `flush_sequenced_source` (lines 963-1003) and
    `flush_timestamped_source` (lines 1007-1022),
  - the state mutations of `PeriodicQuery::run`, the liveliness-event
    callback (lines 689-807) and the three reply-handler `Drop`
    implementations (lines 1031-1092), combined into a step relation over
    events so that arbitrary interleavings of the lock-protected critical
    sections can be reasoned about.

Machine integers: `source_sn` is a Rust `u32` and the two counters are
`u64`.  Both are modelled as `Nat`.  The spec (section 4.1, "Tie-breaks")
explicitly assumes sequence numbers do not wrap within a subscriber
lifetime, and the counters cannot realistically reach 2^64; no claim under
verification depends on wrap-around behavior, so no `% 2^w` is inserted.

`BTreeMap` is modelled as a list of key-value pairs kept sorted in
ascending key order; `BTreeMap::insert` (which replaces the value on an
existing key) and `Entry::or_insert` (which keeps the existing value) are
modelled separately, since the source uses both.  Application-callback and
miss-callback invocations are modelled as an output trace.
-/

namespace AdvSub

/-- HLC timestamp: totally ordered lexicographically by (time, node id).
`nid` is the id returned by `Timestamp::get_id`. -/
structure Ts where
  time : Nat
  nid : Nat
deriving DecidableEq, Repr

/-- The strict lexicographic order of HLC timestamps. -/
def Ts.ltb (a b : Ts) : Bool :=
  decide (a.time < b.time) || (decide (a.time = b.time) && decide (a.nid < b.nid))

/-- A sample as seen by `handle_sample`: optional source id (an
`EntityGlobalId`, modelled as a `Nat`), optional `source_sn`, optional
timestamp, and an opaque payload distinguishing otherwise equal samples. -/
structure Sample where
  source_id : Option Nat
  source_sn : Option Nat
  ts : Option Ts
  payload : Nat
deriving DecidableEq, Repr

/-- Observable outputs of the core: a call of the application callback
(`states.callback.call(sample)`), or a call of one registered miss
callback (`miss_callback.call(Miss { source, nb })`; `handler` is the
registry key of that callback). -/
inductive Out where
  | deliver (s : Sample)
  | miss (handler : Nat) (source : Nat) (nb : Nat)
deriving DecidableEq, Repr

/-- `BTreeMap<u32, Sample>` as a sorted association list. -/
abbrev SMap := List (Nat × Sample)

/-- `BTreeMap::get` / the probe of `remove` on a `u32`-keyed map. -/
def slookup (k : Nat) : SMap → Option Sample
  | [] => none
  | (k', v) :: t => if k' = k then some v else slookup k t

/-- `BTreeMap::insert` on a `u32`-keyed map: replaces the value when the
key is present (last insertion wins). -/
def sinsert (k : Nat) (v : Sample) : SMap → SMap
  | [] => [(k, v)]
  | (k', v') :: t =>
    if k = k' then (k, v) :: t
    else if k < k' then (k, v) :: (k', v') :: t
    else (k', v') :: sinsert k v t

/-- `BTreeMap::remove` (the removal part) on a `u32`-keyed map. -/
def serase (k : Nat) : SMap → SMap
  | [] => []
  | (k', v') :: t => if k' = k then t else (k', v') :: serase k t

/-- `BTreeMap<Timestamp, Sample>` as an association list sorted by the
HLC order. -/
abbrev TMap := List (Ts × Sample)

/-- `BTreeMap::entry(..).or_insert(..)` on a timestamp-keyed map: keeps
the existing value when the key is present (first insertion wins). -/
def tinsertIfAbsent (k : Ts) (v : Sample) : TMap → TMap
  | [] => [(k, v)]
  | (k', v') :: t =>
    if k = k' then (k', v') :: t
    else if Ts.ltb k k' then (k, v) :: (k', v') :: t
    else (k', v') :: tinsertIfAbsent k v t

/-- `SourceState<u32>` (source lines 378-382, instantiated at `T = u32`). -/
structure SStateN where
  last_delivered : Option Nat
  pending_queries : Nat
  pending_samples : SMap
deriving DecidableEq, Repr

/-- `SourceState<Timestamp>`. -/
structure SStateT where
  last_delivered : Option Ts
  pending_queries : Nat
  pending_samples : TMap
deriving DecidableEq, Repr

/-- The fresh state inserted by `entry.or_insert(SourceState { last_delivered:
None, pending_queries: 0, pending_samples: BTreeMap::new() })`. -/
def freshSeq : SStateN := ⟨none, 0, []⟩

/-- The fresh timestamped state inserted by `entry.or_insert`. -/
def freshTs : SStateT := ⟨none, 0, []⟩

/-- Association-list lookup, modelling `HashMap::get`. -/
def getA {β : Type} (k : Nat) : List (Nat × β) → Option β
  | [] => none
  | (k', v) :: t => if k' = k then some v else getA k t

/-- Association-list update-or-append, modelling `HashMap::insert` /
the write-back of an `entry(..)` mutation. -/
def setA {β : Type} (k : Nat) (v : β) : List (Nat × β) → List (Nat × β)
  | [] => [(k, v)]
  | (k', v') :: t => if k' = k then (k, v) :: t else (k', v') :: setA k v t

/-- The global `State` (source lines 333-346).  `session`, `key_expr`,
`period`, `query_target` and `query_timeout` are not part of the claims'
data flow and are omitted; the callback and the miss-handler registry are
represented by the output trace and by the list of registered handler ids
(`next_id` is the registry's id counter). -/
structure GState where
  next_id : Nat
  global_pending_queries : Nat
  sequenced_states : List (Nat × SStateN)
  timestamped_states : List (Nat × SStateT)
  retransmission : Bool
  miss_handlers : List Nat
deriving DecidableEq, Repr

/-- The greedy drain loop of `handle_sample` (lines 448-452):
`while let Some(s) = state.pending_samples.remove(&(last_seq_num + 1))`.
`fuel` bounds the iteration count; each successful step removes one key,
so `fuel = pending_samples.length` is always enough.
Returns the remaining map, the final `last_seq_num`, and the deliveries. -/
def drain (fuel : Nat) (m : SMap) (last : Nat) : SMap × Nat × List Out :=
  match fuel with
  | 0 => (m, last, [])
  | fuel + 1 =>
    match slookup (last + 1) m with
    | none => (m, last, [])
    | some s =>
      let r := drain fuel (serase (last + 1) m) (last + 1)
      (r.1, r.2.1, Out.deliver s :: r.2.2)

/-- The deliver-then-drain branch of `handle_sample` (lines 444-453):
callback on the sample, `last_delivered := source_sn`, then the greedy
drain of consecutive pending samples. -/
def deliverDrain (st : GState) (s : Sample) (sid sn : Nat) (isNew : Bool)
    (q : SStateN) : Bool × GState × List Out :=
  let r := drain q.pending_samples.length q.pending_samples sn
  let q' := { q with last_delivered := some r.2.1, pending_samples := r.1 }
  (isNew,
   { st with sequenced_states := setA sid q' st.sequenced_states },
   Out.deliver s :: r.2.2)

/-- The timestamped branch of `handle_sample` (source lines 455-470), keyed
by the timestamp's id: drop if not newer than `last_delivered`; deliver when
no query is in flight; buffer (first insertion wins) otherwise. -/
def tsIngest (st : GState) (s : Sample) (t : Ts) : Bool × GState × List Out :=
  let q := (getA t.nid st.timestamped_states).getD freshTs
  if (match q.last_delivered with
      | some l => Ts.ltb l t
      | none => true) then
    if st.global_pending_queries = 0 && q.pending_queries = 0 then
      let q' := { q with last_delivered := some t }
      (false,
       { st with timestamped_states := setA t.nid q' st.timestamped_states },
       [Out.deliver s])
    else
      let q' := { q with pending_samples := tinsertIfAbsent t s q.pending_samples }
      (false,
       { st with timestamped_states := setA t.nid q' st.timestamped_states },
       [])
  else
    (false,
     { st with timestamped_states := setA t.nid q st.timestamped_states },
     [])

/-- `handle_sample` (source lines 410-475).  Returns the `new`-source flag,
the new state, and the outputs in emission order. -/
def handle_sample (st : GState) (s : Sample) : Bool × GState × List Out :=
  match s.source_id, s.source_sn with
  | some sid, some sn =>
    -- sequenced path: entry(..) remembers vacancy, or_insert a fresh state
    let p := match getA sid st.sequenced_states with
      | some q => (false, q)
      | none => (true, freshSeq)
    let isNew := p.1
    let q := p.2
    if st.global_pending_queries ≠ 0 then
      -- line 422-423: global query in flight, buffer
      let q' := { q with pending_samples := sinsert sn s q.pending_samples }
      (isNew,
       { st with sequenced_states := setA sid q' st.sequenced_states },
       [])
    else
      match q.last_delivered with
      | some k =>
        if sn = k + 1 then
          deliverDrain st s sid sn isNew q
        else if k < sn then
          if st.retransmission then
            -- line 426-427: buffer, a gap-fill query will be issued
            let q' := { q with pending_samples := sinsert sn s q.pending_samples }
            (isNew,
             { st with sequenced_states := setA sid q' st.sequenced_states },
             [])
          else
            -- lines 429-441: report the miss to every handler, then deliver
            let q' := { q with last_delivered := some sn }
            (isNew,
             { st with sequenced_states := setA sid q' st.sequenced_states },
             st.miss_handlers.map (fun h => Out.miss h sid (sn - k - 1))
               ++ [Out.deliver s])
        else
          -- source_sn ≤ last_delivered: duplicate or stale, dropped
          (isNew,
           { st with sequenced_states := setA sid q st.sequenced_states },
           [])
      | none => deliverDrain st s sid sn isNew q
  | _, _ =>
    match s.ts with
    | some t => tsIngest st s t
    | none =>
      -- orderless path (lines 471-474): deliver immediately
      (false, st, [Out.deliver s])

/-- `seq_num_range` (source lines 478-485), producing the `_sn=` selector
parameter. -/
def seq_num_range (start stop : Option Nat) : String :=
  match start, stop with
  | some a, some b => "_sn=" ++ toString a ++ ".." ++ toString b
  | some a, none => "_sn=" ++ toString a ++ ".."
  | none, some b => "_sn=.." ++ toString b
  | none, none => "_sn=.."

/-- The selector computed by `PeriodicQuery::run` (line 509):
`seq_num_range(state.last_delivered.map(|s| s + 1), None)`. -/
def periodicProbeSelector (last_delivered : Option Nat) : String :=
  seq_num_range (last_delivered.map (· + 1)) none

/-- The selector computed by the live-sample retransmission trigger
(lines 607-608): the same expression as the periodic probe. -/
def retransProbeSelector (last_delivered : Option Nat) : String :=
  seq_num_range (last_delivered.map (· + 1)) none

/-- The iteration body of `flush_sequenced_source` (source lines 972-1001),
threading `last_delivered` through the detached ascending entry list and
collecting the outputs. -/
def flushLoop (handlers : List Nat) (sid : Nat) :
    List (Nat × Sample) → Option Nat → Option Nat × List Out
  | [], last => (last, [])
  | (sn, s) :: rest, last =>
    match last with
    | none =>
      let r := flushLoop handlers sid rest (some sn)
      (r.1, Out.deliver s :: r.2)
    | some k =>
      if sn = k + 1 then
        let r := flushLoop handlers sid rest (some sn)
        (r.1, Out.deliver s :: r.2)
      else if k + 1 < sn then
        let r := flushLoop handlers sid rest (some sn)
        (r.1, handlers.map (fun h => Out.miss h sid (sn - k - 1))
                ++ Out.deliver s :: r.2)
      else
        -- seq_num ≤ last_delivered: duplicate, dropped
        flushLoop handlers sid rest (some k)

/-- `flush_sequenced_source` (source lines 963-1003): when the source has
no pending query and a non-empty buffer, detach `pending_samples` (the
`mem::swap` with an empty map) and run the delivery loop over it. -/
def flush_sequenced_source (q : SStateN) (sid : Nat) (handlers : List Nat) :
    SStateN × List Out :=
  if q.pending_queries = 0 ∧ q.pending_samples ≠ [] then
    let r := flushLoop handlers sid q.pending_samples q.last_delivered
    ({ q with last_delivered := r.1, pending_samples := [] }, r.2)
  else (q, [])

/-- The iteration body of `flush_timestamped_source` (lines 1011-1020). -/
def flushTsLoop : List (Ts × Sample) → Option Ts → Option Ts × List Out
  | [], last => (last, [])
  | (t, s) :: rest, last =>
    match last with
    | none =>
      let r := flushTsLoop rest (some t)
      (r.1, Out.deliver s :: r.2)
    | some l =>
      if Ts.ltb l t then
        let r := flushTsLoop rest (some t)
        (r.1, Out.deliver s :: r.2)
      else
        flushTsLoop rest (some l)

/-- `flush_timestamped_source` (source lines 1007-1022). -/
def flush_timestamped_source (q : SStateT) : SStateT × List Out :=
  if q.pending_queries = 0 ∧ q.pending_samples ≠ [] then
    let r := flushTsLoop q.pending_samples q.last_delivered
    ({ q with last_delivered := r.1, pending_samples := [] }, r.2)
  else (q, [])

/-- The loop of `InitialRepliesHandler::drop` over all sequenced states
(lines 1037-1040). -/
def flushAllSeq (handlers : List Nat) :
    List (Nat × SStateN) → List (Nat × SStateN) × List Out
  | [] => ([], [])
  | (sid, q) :: rest =>
    let r := flush_sequenced_source q sid handlers
    let rr := flushAllSeq handlers rest
    ((sid, r.1) :: rr.1, r.2 ++ rr.2)

/-- The loop of `InitialRepliesHandler::drop` over all timestamped states
(lines 1041-1043). -/
def flushAllTs : List (Nat × SStateT) → List (Nat × SStateT) × List Out
  | [] => ([], [])
  | (nid, q) :: rest =>
    let r := flush_timestamped_source q
    let rr := flushAllTs rest
    ((nid, r.1) :: rr.1, r.2 ++ rr.2)

/-- The lock-protected critical sections that mutate `State`, as events.
Each constructor is one entry point of the source:
  - `sample`: `handle_sample`, reached from the live subscriber callback
    and from every query-reply callback;
  - `liveRetrans`: the retransmission trigger run by the live callback
    after `handle_sample` (lines 594-599: bump `pending_queries` when
    retransmission is configured, no query is outstanding and the buffer
    is non-empty);
  - `periodic`: the state mutation of `PeriodicQuery::run` (lines 500-501);
  - `livelinessSeq` / `livelinessTs`: a liveliness `Put` whose token parses
    to a sequenced (lines 749-756) / timestamped (lines 698-704) source:
    get-or-create the state and bump its `pending_queries`;
  - `livelinessBad`: a liveliness `Put` whose zid fails to parse
    (lines 803-806): bump `global_pending_queries`;
  - `dropInitial` / `dropSequenced` / `dropTimestamped`: the three reply
    guard `Drop` impls (lines 1031-1092);
  - `registerMiss` / `unregisterMiss`: the miss-handler registry
    (lines 351-360). -/
inductive Ev where
  | sample (s : Sample)
  | liveRetrans (sid : Nat)
  | periodic (sid : Nat)
  | livelinessSeq (sid : Nat)
  | livelinessTs (nid : Nat)
  | livelinessBad
  | dropInitial
  | dropSequenced (sid : Nat)
  | dropTimestamped (nid : Nat)
  | registerMiss
  | unregisterMiss (h : Nat)
deriving DecidableEq, Repr

/-- One critical section: the state mutation and outputs of one event. -/
def stepEv (st : GState) (e : Ev) : GState × List Out :=
  match e with
  | .sample s =>
    let r := handle_sample st s
    (r.2.1, r.2.2)
  | .liveRetrans sid =>
    match getA sid st.sequenced_states with
    | some q =>
      if st.retransmission ∧ q.pending_queries = 0 ∧ q.pending_samples ≠ [] then
        let q' := { q with pending_queries := q.pending_queries + 1 }
        ({ st with sequenced_states := setA sid q' st.sequenced_states }, [])
      else (st, [])
    | none => (st, [])
  | .periodic sid =>
    match getA sid st.sequenced_states with
    | some q =>
      let q' := { q with pending_queries := q.pending_queries + 1 }
      ({ st with sequenced_states := setA sid q' st.sequenced_states }, [])
    | none => (st, [])
  | .livelinessSeq sid =>
    let q := (getA sid st.sequenced_states).getD freshSeq
    let q' := { q with pending_queries := q.pending_queries + 1 }
    ({ st with sequenced_states := setA sid q' st.sequenced_states }, [])
  | .livelinessTs nid =>
    let q := (getA nid st.timestamped_states).getD freshTs
    let q' := { q with pending_queries := q.pending_queries + 1 }
    ({ st with timestamped_states := setA nid q' st.timestamped_states }, [])
  | .livelinessBad =>
    ({ st with global_pending_queries := st.global_pending_queries + 1 }, [])
  | .dropInitial =>
    -- saturating_sub then flush everything if the counter reached zero
    let g := st.global_pending_queries - 1
    if g = 0 then
      let fs := flushAllSeq st.miss_handlers st.sequenced_states
      let ft := flushAllTs st.timestamped_states
      ({ st with global_pending_queries := g,
                 sequenced_states := fs.1,
                 timestamped_states := ft.1 }, fs.2 ++ ft.2)
    else
      ({ st with global_pending_queries := g }, [])
  | .dropSequenced sid =>
    match getA sid st.sequenced_states with
    | some q =>
      let q' := { q with pending_queries := q.pending_queries - 1 }
      if st.global_pending_queries = 0 then
        let r := flush_sequenced_source q' sid st.miss_handlers
        ({ st with sequenced_states := setA sid r.1 st.sequenced_states }, r.2)
      else
        ({ st with sequenced_states := setA sid q' st.sequenced_states }, [])
    | none => (st, [])
  | .dropTimestamped nid =>
    match getA nid st.timestamped_states with
    | some q =>
      let q' := { q with pending_queries := q.pending_queries - 1 }
      if st.global_pending_queries = 0 then
        let r := flush_timestamped_source q'
        ({ st with timestamped_states := setA nid r.1 st.timestamped_states }, r.2)
      else
        ({ st with timestamped_states := setA nid q' st.timestamped_states }, [])
    | none => (st, [])
  | .registerMiss =>
    ({ st with next_id := st.next_id + 1,
               miss_handlers := st.miss_handlers ++ [st.next_id] }, [])
  | .unregisterMiss h =>
    ({ st with miss_handlers := st.miss_handlers.filter (· ≠ h) }, [])

/-- A run of the subscriber core: fold `stepEv` over an event list,
concatenating the outputs in emission order. -/
def runEv (st : GState) : List Ev → GState × List Out
  | [] => (st, [])
  | e :: es =>
    let r := stepEv st e
    let rr := runEv r.1 es
    (rr.1, r.2 ++ rr.2)

/-- The state built by `AdvancedSubscriber::new` (lines 557-576):
empty maps, `global_pending_queries = 1` iff a history configuration is
present, `retransmission = retransmission.is_some()`. -/
def initState (history retrans : Bool) : GState :=
  { next_id := 0
    global_pending_queries := if history then 1 else 0
    sequenced_states := []
    timestamped_states := []
    retransmission := retrans
    miss_handlers := [] }

/-- Extracts, from one output, the sequence number it delivers for
sequenced source `sid`, if any. -/
def seqDeliverSn (sid : Nat) : Out → Option Nat
  | .deliver s =>
    match s.source_id, s.source_sn with
    | some i, some n => if i = sid then some n else none
    | _, _ => none
  | .miss _ _ _ => none

/-- The sequence numbers delivered to the application for sequenced source
`sid`, in emission order. -/
def seqDeliveries (sid : Nat) (outs : List Out) : List Nat :=
  outs.filterMap (seqDeliverSn sid)

/-- The `last_delivered` of sequenced source `sid` (`none` when the source
has no state yet). -/
def lastSeqOf (st : GState) (sid : Nat) : Option Nat :=
  match getA sid st.sequenced_states with
  | some q => q.last_delivered
  | none => none

/-- `oltP o x` : the optional value `o` is absent or strictly below `x`. -/
def oltP : Option Nat → Nat → Prop
  | none, _ => True
  | some a, x => a < x

/-- Pointed order on optional sequence numbers, `none` bottom. -/
def oleP : Option Nat → Option Nat → Prop
  | none, _ => True
  | some _, none => False
  | some a, some b => a ≤ b

theorem oleP_refl (o : Option Nat) : oleP o o := by
  cases o <;> simp [oleP]

theorem oleP_trans {a b c : Option Nat} (h1 : oleP a b) (h2 : oleP b c) :
    oleP a c := by
  cases a <;> cases b <;> cases c <;> simp_all [oleP] <;> omega

theorem oleP_oltP {a b : Option Nat} {x : Nat} (h1 : oleP a b) (h2 : oltP b x) :
    oltP a x := by
  cases a <;> cases b <;> simp_all [oleP, oltP] <;> omega

theorem oltP_oleP {a : Option Nat} {x : Nat} (h : oltP a x) : oleP a (some x) := by
  cases a <;> simp_all [oleP, oltP] <;> omega

/-- Keys of two association-list entries are strictly ordered. -/
def keyLt {β : Type} (a b : Nat × β) : Prop := a.1 < b.1

/-- Keys of two association-list entries differ. -/
def keyNe {β : Type} (a b : Nat × β) : Prop := a.1 ≠ b.1

theorem keyLt_keyNe {β : Type} {m : List (Nat × β)}
    (h : m.Pairwise keyLt) : m.Pairwise keyNe :=
  h.imp (fun hab => Nat.ne_of_lt hab)

theorem getA_setA_self {β : Type} (k : Nat) (v : β) (m : List (Nat × β)) :
    getA k (setA k v m) = some v := by
  induction m with
  | nil => simp [getA, setA]
  | cons p t ih =>
    obtain ⟨a, b⟩ := p
    by_cases h : a = k
    · simp [setA, h, getA]
    · simp [setA, h, getA, ih]

theorem getA_setA_ne {β : Type} {j k : Nat} (h : j ≠ k) (v : β)
    (m : List (Nat × β)) : getA j (setA k v m) = getA j m := by
  have hkj : ¬ k = j := fun hh => h hh.symm
  induction m with
  | nil => simp [setA, getA, hkj]
  | cons p t ih =>
    obtain ⟨a, b⟩ := p
    by_cases h1 : a = k
    · subst h1
      simp [setA, getA, hkj]
    · by_cases h2 : a = j <;> simp [setA, getA, h1, h2, h, hkj, ih]

theorem mem_setA {β : Type} {j : Nat} {w : β} {k : Nat} {v : β}
    {m : List (Nat × β)} (h : (j, w) ∈ setA k v m) :
    (j = k ∧ w = v) ∨ (j, w) ∈ m := by
  induction m with
  | nil =>
    simp [setA] at h
    exact Or.inl h
  | cons p t ih =>
    obtain ⟨a, b⟩ := p
    by_cases h1 : a = k
    · simp only [setA, if_pos h1] at h
      rcases List.mem_cons.mp h with h | h
      · exact Or.inl (by simpa using h)
      · exact Or.inr (List.mem_cons_of_mem _ h)
    · simp only [setA, if_neg h1] at h
      rcases List.mem_cons.mp h with h | h
      · exact Or.inr (by simp [h])
      · rcases ih h with h | h
        · exact Or.inl h
        · exact Or.inr (List.mem_cons_of_mem _ h)

theorem pairwise_keyNe_setA {β : Type} {k : Nat} {v : β} {m : List (Nat × β)}
    (h : m.Pairwise keyNe) : (setA k v m).Pairwise keyNe := by
  induction m with
  | nil => simp [setA]
  | cons p t ih =>
    obtain ⟨a, b⟩ := p
    rw [List.pairwise_cons] at h
    by_cases h1 : a = k
    · simp only [setA, if_pos h1]
      rw [List.pairwise_cons]
      refine ⟨?_, h.2⟩
      intro q hq
      exact h1 ▸ h.1 q hq
    · simp only [setA, if_neg h1]
      rw [List.pairwise_cons]
      refine ⟨?_, ih h.2⟩
      intro q hq
      obtain ⟨c, d⟩ := q
      rcases mem_setA hq with ⟨rfl, rfl⟩ | hq
      · exact h1
      · exact h.1 _ hq

theorem getA_mem {β : Type} {k : Nat} {v : β} {m : List (Nat × β)}
    (h : getA k m = some v) : (k, v) ∈ m := by
  induction m with
  | nil => simp [getA] at h
  | cons p t ih =>
    obtain ⟨a, b⟩ := p
    by_cases h1 : a = k
    · simp only [getA, if_pos h1] at h
      obtain rfl := Option.some.inj h
      subst h1
      exact List.mem_cons_self _ _
    · simp only [getA, if_neg h1] at h
      exact List.mem_cons_of_mem _ (ih h)

theorem getA_none_not_mem {β : Type} {k : Nat} {m : List (Nat × β)}
    (h : getA k m = none) : ∀ v, (k, v) ∉ m := by
  induction m with
  | nil => simp
  | cons p t ih =>
    obtain ⟨a, b⟩ := p
    by_cases h1 : a = k
    · simp [getA, h1] at h
    · simp only [getA, if_neg h1] at h
      intro v hv
      rcases List.mem_cons.mp hv with hv | hv
      · exact h1 (congrArg Prod.fst hv).symm
      · exact ih h v hv

theorem mem_getA_pairwise {β : Type} {k : Nat} {v : β} {m : List (Nat × β)}
    (hnd : m.Pairwise keyNe) (h : (k, v) ∈ m) : getA k m = some v := by
  induction m with
  | nil => simp at h
  | cons p t ih =>
    obtain ⟨a, b⟩ := p
    rw [List.pairwise_cons] at hnd
    rcases List.mem_cons.mp h with h | h
    · rw [Prod.ext_iff] at h
      obtain ⟨h1, h2⟩ := h
      simp only [getA, if_pos h1.symm]
      exact congrArg some h2.symm
    · have hak : ¬ a = k := fun hh => (hnd.1 _ h) hh
      simp [getA, hak, ih hnd.2 h]

theorem slookup_mem {k : Nat} {v : Sample} {m : SMap}
    (h : slookup k m = some v) : (k, v) ∈ m := by
  induction m with
  | nil => simp [slookup] at h
  | cons p t ih =>
    obtain ⟨a, b⟩ := p
    by_cases h1 : a = k
    · simp only [slookup, if_pos h1] at h
      obtain rfl := Option.some.inj h
      subst h1
      exact List.mem_cons_self _ _
    · simp only [slookup, if_neg h1] at h
      exact List.mem_cons_of_mem _ (ih h)

theorem slookup_none {k : Nat} {m : SMap} (h : slookup k m = none) :
    ∀ v, (k, v) ∉ m := by
  induction m with
  | nil => simp
  | cons p t ih =>
    obtain ⟨a, b⟩ := p
    by_cases h1 : a = k
    · simp [slookup, h1] at h
    · simp only [slookup, if_neg h1] at h
      intro v hv
      rcases List.mem_cons.mp hv with hv | hv
      · exact h1 (congrArg Prod.fst hv).symm
      · exact ih h v hv

theorem mem_serase {j k : Nat} {w : Sample} {m : SMap}
    (h : (j, w) ∈ serase k m) : (j, w) ∈ m := by
  induction m with
  | nil => simpa [serase] using h
  | cons p t ih =>
    obtain ⟨a, b⟩ := p
    by_cases h1 : a = k
    · simp only [serase, if_pos h1] at h
      exact List.mem_cons_of_mem _ h
    · simp only [serase, if_neg h1] at h
      rcases List.mem_cons.mp h with h | h
      · simp [h]
      · exact List.mem_cons_of_mem _ (ih h)

theorem serase_sublist (k : Nat) (m : SMap) : (serase k m).Sublist m := by
  induction m with
  | nil => simp [serase]
  | cons p t ih =>
    obtain ⟨a, b⟩ := p
    by_cases h1 : a = k
    · simp only [serase, if_pos h1]
      exact List.sublist_cons_self _ _
    · simp only [serase, if_neg h1]
      exact List.Sublist.cons₂ _ ih

theorem length_serase_lt {k : Nat} {v : Sample} {m : SMap}
    (h : slookup k m = some v) : (serase k m).length < m.length := by
  induction m with
  | nil => simp [slookup] at h
  | cons p t ih =>
    obtain ⟨a, b⟩ := p
    by_cases h1 : a = k
    · simp [serase, h1]
    · simp only [slookup, if_neg h1] at h
      simpa [serase, h1] using ih h

theorem mem_serase_ne {j k : Nat} {w v : Sample} {m : SMap}
    (hnd : m.Pairwise keyNe) (hlk : slookup k m = some v)
    (h : (j, w) ∈ serase k m) : (j, w) ∈ m ∧ j ≠ k := by
  refine ⟨mem_serase h, ?_⟩
  induction m with
  | nil => simp [serase] at h
  | cons p t ih =>
    obtain ⟨a, b⟩ := p
    rw [List.pairwise_cons] at hnd
    by_cases h1 : a = k
    · -- the erased entry was the head; nodup keys: k does not occur in t
      simp only [serase, if_pos h1] at h
      intro hj
      subst hj
      exact (hnd.1 _ h) h1
    · simp only [serase, if_neg h1] at h
      simp only [slookup, if_neg h1] at hlk
      rcases List.mem_cons.mp h with h | h
      · intro hj
        exact h1 ((congrArg Prod.fst h).symm.trans hj)
      · exact ih hnd.2 hlk h

theorem mem_sinsert {j k : Nat} {w v : Sample} {m : SMap}
    (h : (j, w) ∈ sinsert k v m) : (j = k ∧ w = v) ∨ (j, w) ∈ m := by
  induction m with
  | nil =>
    simp [sinsert] at h
    exact Or.inl h
  | cons p t ih =>
    obtain ⟨a, b⟩ := p
    by_cases h1 : k = a
    · simp only [sinsert, if_pos h1] at h
      rcases List.mem_cons.mp h with h | h
      · exact Or.inl (by simpa using h)
      · exact Or.inr (List.mem_cons_of_mem _ h)
    · by_cases h2 : k < a
      · simp only [sinsert, if_neg h1, if_pos h2] at h
        rcases List.mem_cons.mp h with h | h
        · exact Or.inl (by simpa using h)
        · exact Or.inr h
      · simp only [sinsert, if_neg h1, if_neg h2] at h
        rcases List.mem_cons.mp h with h | h
        · exact Or.inr (by simp [h])
        · rcases ih h with h | h
          · exact Or.inl h
          · exact Or.inr (List.mem_cons_of_mem _ h)

theorem slookup_sinsert_self (k : Nat) (v : Sample) (m : SMap) :
    slookup k (sinsert k v m) = some v := by
  induction m with
  | nil => simp [sinsert, slookup]
  | cons p t ih =>
    obtain ⟨a, b⟩ := p
    by_cases h1 : k = a
    · simp [sinsert, h1, slookup]
    · by_cases h2 : k < a
      · simp [sinsert, h1, h2, slookup]
      · have hak : ¬ a = k := fun hh => h1 hh.symm
        simp [sinsert, h1, h2, slookup, hak, ih]

theorem pairwise_keyLt_sinsert {k : Nat} {v : Sample} {m : SMap}
    (h : m.Pairwise keyLt) : (sinsert k v m).Pairwise keyLt := by
  induction m with
  | nil => simp [sinsert]
  | cons p t ih =>
    obtain ⟨a, b⟩ := p
    rw [List.pairwise_cons] at h
    by_cases h1 : k = a
    · simp only [sinsert, if_pos h1]
      rw [List.pairwise_cons]
      refine ⟨?_, h.2⟩
      intro q hq
      have h2 := h.1 q hq
      simpa [keyLt, h1] using h2
    · by_cases h2 : k < a
      · simp only [sinsert, if_neg h1, if_pos h2]
        rw [List.pairwise_cons]
        refine ⟨?_, List.pairwise_cons.mpr h⟩
        intro q hq
        rcases List.mem_cons.mp hq with rfl | hq
        · exact h2
        · exact lt_trans h2 (h.1 q hq)
      · simp only [sinsert, if_neg h1, if_neg h2]
        rw [List.pairwise_cons]
        refine ⟨?_, ih h.2⟩
        intro q hq
        obtain ⟨c, d⟩ := q
        rcases mem_sinsert hq with ⟨rfl, rfl⟩ | hq
        · exact lt_of_le_of_ne (Nat.le_of_not_lt h2) (fun hh => h1 hh.symm)
        · exact h.1 _ hq

theorem pairwise_keyLt_serase {k : Nat} {m : SMap}
    (h : m.Pairwise keyLt) : (serase k m).Pairwise keyLt :=
  List.Pairwise.sublist (serase_sublist k m) h

theorem mem_tinsertIfAbsent {u k : Ts} {w v : Sample} {m : TMap}
    (h : (u, w) ∈ tinsertIfAbsent k v m) : (u = k ∧ w = v) ∨ (u, w) ∈ m := by
  induction m with
  | nil =>
    simp [tinsertIfAbsent] at h
    exact Or.inl h
  | cons p t ih =>
    obtain ⟨a, b⟩ := p
    by_cases h1 : k = a
    · simp only [tinsertIfAbsent, if_pos h1] at h
      exact Or.inr h
    · by_cases h2 : Ts.ltb k a
      · simp only [tinsertIfAbsent, if_neg h1, if_pos h2] at h
        rcases List.mem_cons.mp h with h | h
        · exact Or.inl (by simpa using h)
        · exact Or.inr h
      · simp only [tinsertIfAbsent, if_neg h1, if_neg h2] at h
        rcases List.mem_cons.mp h with h | h
        · exact Or.inr (by simp [h])
        · rcases ih h with h | h
          · exact Or.inl h
          · exact Or.inr (List.mem_cons_of_mem _ h)

/-- `BTreeMap::get` on a timestamp-keyed map. -/
def tlookup (k : Ts) : TMap → Option Sample
  | [] => none
  | (k', v) :: t => if k' = k then some v else tlookup k t

theorem Ts.ltb_asymm {a b : Ts} (h1 : Ts.ltb a b = true) (h2 : Ts.ltb b a = true) :
    False := by
  simp [Ts.ltb] at h1 h2
  omega

/-- Keys of two timestamp-keyed entries are strictly ordered by the HLC order. -/
abbrev tkeyLt (a b : Ts × Sample) : Prop := Ts.ltb a.1 b.1 = true

theorem tlookup_mem {k : Ts} {v : Sample} {m : TMap}
    (h : tlookup k m = some v) : (k, v) ∈ m := by
  induction m with
  | nil => simp [tlookup] at h
  | cons p t ih =>
    obtain ⟨a, b⟩ := p
    by_cases h1 : a = k
    · simp only [tlookup, if_pos h1] at h
      obtain rfl := Option.some.inj h
      subst h1
      exact List.mem_cons_self _ _
    · simp only [tlookup, if_neg h1] at h
      exact List.mem_cons_of_mem _ (ih h)

theorem tlookup_tinsertIfAbsent_self {k : Ts} {v0 : Sample} {m : TMap}
    (hs : m.Pairwise tkeyLt) (h : tlookup k m = some v0) (v : Sample) :
    tlookup k (tinsertIfAbsent k v m) = some v0 := by
  induction m with
  | nil => simp [tlookup] at h
  | cons p t ih =>
    obtain ⟨a, b⟩ := p
    rw [List.pairwise_cons] at hs
    by_cases h1 : a = k
    · simp only [tlookup, if_pos h1] at h
      simp only [tinsertIfAbsent, if_pos h1.symm, tlookup, if_pos h1]
      exact h
    · have hka : ¬ k = a := fun hh => h1 hh.symm
      simp only [tlookup, if_neg h1] at h
      by_cases h2 : Ts.ltb k a
      · -- impossible: k occurs in t, so a is HLC-below k, contradicting k < a
        exact absurd ((hs.1 _ (tlookup_mem h) : Ts.ltb a k = true))
          (fun hak => Ts.ltb_asymm hak h2)
      · simp [tinsertIfAbsent, hka, h2, tlookup, h1, ih hs.2 h]

/- ### Drain-loop lemmas -/

theorem chain'_lt_range' : ∀ (n s : Nat), List.Chain' (· < ·) (List.range' s n)
  | 0, _ => by simp
  | n + 1, s => by
    rw [List.range'_succ]
    refine List.chain'_cons'.mpr ⟨?_, chain'_lt_range' n (s + 1)⟩
    intro y hy
    cases n with
    | zero => simp at hy
    | succ n =>
      rw [List.range'_succ] at hy
      simp at hy
      omega

theorem drain_sub : ∀ (fuel : Nat) (m : SMap) (last : Nat) (j : Nat) (w : Sample),
    (j, w) ∈ (drain fuel m last).1 → (j, w) ∈ m := by
  intro fuel
  induction fuel with
  | zero => intro m last j w h; simpa [drain] using h
  | succ fuel ih =>
    intro m last j w h
    rw [drain] at h
    cases hlk : slookup (last + 1) m with
    | none => simpa [hlk] using h
    | some s =>
      simp only [hlk] at h
      exact mem_serase (ih _ _ _ _ h)

theorem drain_last_ge : ∀ (fuel : Nat) (m : SMap) (last : Nat),
    last ≤ (drain fuel m last).2.1 := by
  intro fuel
  induction fuel with
  | zero => intro m last; simp [drain]
  | succ fuel ih =>
    intro m last
    rw [drain]
    cases hlk : slookup (last + 1) m with
    | none => simp
    | some s =>
      simp only
      exact Nat.le_of_succ_le (ih (serase (last + 1) m) (last + 1))

theorem drain_outs (sid : Nat) : ∀ (fuel : Nat) (m : SMap) (last : Nat),
    (∀ j w, (j, w) ∈ m → w.source_id = some sid ∧ w.source_sn = some j) →
    ∀ tid, seqDeliveries tid (drain fuel m last).2.2 =
      if tid = sid then List.range' (last + 1) ((drain fuel m last).2.1 - last)
      else [] := by
  intro fuel
  induction fuel with
  | zero =>
    intro m last _ tid
    simp [drain, seqDeliveries]
  | succ fuel ih =>
    intro m last hf tid
    rw [drain]
    cases hlk : slookup (last + 1) m with
    | none => simp [seqDeliveries]
    | some s =>
      simp only
      have hs := hf _ _ (slookup_mem hlk)
      have hf' : ∀ j w, (j, w) ∈ serase (last + 1) m →
          w.source_id = some sid ∧ w.source_sn = some j :=
        fun j w hjw => hf j w (mem_serase hjw)
      have hge := drain_last_ge fuel (serase (last + 1) m) (last + 1)
      by_cases htid : tid = sid
      · subst htid
        have hhd : seqDeliverSn tid (Out.deliver s) = some (last + 1) := by
          simp [seqDeliverSn, hs.1, hs.2]
        simp only [seqDeliveries, List.filterMap_cons, hhd]
        have := ih (serase (last + 1) m) (last + 1) hf' tid
        simp only [seqDeliveries, eq_self_iff_true, if_true] at this
        simp only [eq_self_iff_true, if_true, this]
        have harith : (drain fuel (serase (last + 1) m) (last + 1)).2.1 - last =
            ((drain fuel (serase (last + 1) m) (last + 1)).2.1 - (last + 1)) + 1 := by
          omega
        rw [harith, List.range'_succ]
      · have hhd : seqDeliverSn tid (Out.deliver s) = none := by
          simp [seqDeliverSn, hs.1, hs.2]
          intro hh
          exact absurd hh.symm htid
        simp only [seqDeliveries, List.filterMap_cons, hhd]
        have := ih (serase (last + 1) m) (last + 1) hf' tid
        simp only [if_neg htid] at this
        simp only [seqDeliveries] at this
        rw [this, if_neg htid]

/-- After a complete drain (enough fuel), the successor of the final
`last_delivered` is no longer buffered. -/
theorem drain_complete : ∀ (fuel : Nat) (m : SMap) (last : Nat),
    m.length ≤ fuel →
    slookup ((drain fuel m last).2.1 + 1) (drain fuel m last).1 = none := by
  intro fuel
  induction fuel with
  | zero =>
    intro m last hlen
    have : m = [] := List.length_eq_zero.mp (Nat.le_zero.mp hlen)
    subst this
    simp [drain, slookup]
  | succ fuel ih =>
    intro m last hlen
    rw [drain]
    cases hlk : slookup (last + 1) m with
    | none => simpa using hlk
    | some s =>
      simp only
      exact ih (serase (last + 1) m) (last + 1)
        (by have := length_serase_lt hlk; omega)

/-- Keys remaining after a complete drain are strictly above the successor
of the final `last_delivered` (needs distinct keys). -/
theorem drain_gt : ∀ (fuel : Nat) (m : SMap) (last : Nat),
    m.length ≤ fuel →
    m.Pairwise keyNe →
    (∀ j w, (j, w) ∈ m → last < j) →
    ∀ j w, (j, w) ∈ (drain fuel m last).1 → (drain fuel m last).2.1 + 1 < j := by
  intro fuel
  induction fuel with
  | zero =>
    intro m last hlen _ _ j w h
    have : m = [] := List.length_eq_zero.mp (Nat.le_zero.mp hlen)
    subst this
    simp [drain] at h
  | succ fuel ih =>
    intro m last hlen hnd hgt j w h
    rw [drain] at h ⊢
    cases hlk : slookup (last + 1) m with
    | none =>
      simp only [hlk] at h
      simp only [hlk]
      have h1 := hgt j w h
      have h2 : j ≠ last + 1 := fun hh => slookup_none hlk w (hh ▸ h)
      omega
    | some s =>
      simp only [hlk] at h
      simp only [hlk]
      refine ih (serase (last + 1) m) (last + 1)
        (by have := length_serase_lt hlk; omega)
        (List.Pairwise.sublist (serase_sublist _ _) hnd) ?_ j w h
      intro j' w' hj'
      obtain ⟨hmem, hne⟩ := mem_serase_ne hnd hlk hj'
      have := hgt j' w' hmem
      omega

/- ### Output-trace helper lemmas -/

theorem seqDeliveries_append (sid : Nat) (a b : List Out) :
    seqDeliveries sid (a ++ b) = seqDeliveries sid a ++ seqDeliveries sid b := by
  simp [seqDeliveries, List.filterMap_append]

theorem seqDeliveries_miss_map (tid src nb : Nat) (handlers : List Nat) :
    seqDeliveries tid (handlers.map (fun h => Out.miss h src nb)) = [] := by
  induction handlers with
  | nil => simp [seqDeliveries]
  | cons h t ih => simpa [seqDeliveries, seqDeliverSn] using ih

/- ### Flush-loop lemmas -/

theorem flushLoop_ok (handlers : List Nat) (sid : Nat) :
    ∀ (entries : List (Nat × Sample)) (last : Option Nat),
    (∀ j w, (j, w) ∈ entries → w.source_id = some sid ∧ w.source_sn = some j) →
    oleP last (flushLoop handlers sid entries last).1 ∧
    List.Chain' (· < ·) (seqDeliveries sid (flushLoop handlers sid entries last).2) ∧
    (∀ x ∈ seqDeliveries sid (flushLoop handlers sid entries last).2,
       oltP last x ∧ oleP (some x) (flushLoop handlers sid entries last).1) ∧
    (∀ tid, tid ≠ sid →
       seqDeliveries tid (flushLoop handlers sid entries last).2 = []) := by
  intro entries
  induction entries with
  | nil =>
    intro last _
    refine ⟨oleP_refl _, by simp [flushLoop, seqDeliveries], by simp [flushLoop, seqDeliveries], ?_⟩
    intro tid _
    simp [flushLoop, seqDeliveries]
  | cons p rest ih =>
    intro last hf
    obtain ⟨sn, s⟩ := p
    have hs := hf sn s (List.mem_cons_self _ _)
    have hf' : ∀ j w, (j, w) ∈ rest → w.source_id = some sid ∧ w.source_sn = some j :=
      fun j w hjw => hf j w (List.mem_cons_of_mem _ hjw)
    have hhd : seqDeliverSn sid (Out.deliver s) = some sn := by
      simp [seqDeliverSn, hs.1, hs.2]
    have hhd' : ∀ tid, tid ≠ sid → seqDeliverSn tid (Out.deliver s) = none := by
      intro tid htid
      simp [seqDeliverSn, hs.1, hs.2]
      intro hh
      exact absurd hh.symm htid
    cases last with
    | none =>
      obtain ⟨ih1, ih2, ih3, ih4⟩ := ih (some sn) hf'
      simp only [flushLoop]
      refine ⟨trivial, ?_, ?_, ?_⟩
      · simp only [seqDeliveries, List.filterMap_cons, hhd]
        refine List.chain'_cons'.mpr ⟨?_, ih2⟩
        intro y hy
        have hy' := ih3 y (List.mem_of_mem_head? hy)
        simpa [oltP] using hy'.1
      · intro x hx
        simp only [seqDeliveries, List.filterMap_cons, hhd] at hx
        rcases List.mem_cons.mp hx with rfl | hx
        · exact ⟨trivial, ih1⟩
        · exact ⟨trivial, (ih3 x hx).2⟩
      · intro tid htid
        simp only [seqDeliveries, List.filterMap_cons, hhd' tid htid]
        exact ih4 tid htid
    | some k =>
      by_cases h1 : sn = k + 1
      · obtain ⟨ih1, ih2, ih3, ih4⟩ := ih (some sn) hf'
        simp only [flushLoop, if_pos h1]
        have hle : oleP (some k) (flushLoop handlers sid rest (some sn)).1 :=
          oleP_trans (show oleP (some k) (some sn) by simp [oleP]; omega) ih1
        refine ⟨hle, ?_, ?_, ?_⟩
        · simp only [seqDeliveries, List.filterMap_cons, hhd]
          refine List.chain'_cons'.mpr ⟨?_, ih2⟩
          intro y hy
          have hy' := ih3 y (List.mem_of_mem_head? hy)
          simpa [oltP] using hy'.1
        · intro x hx
          simp only [seqDeliveries, List.filterMap_cons, hhd] at hx
          rcases List.mem_cons.mp hx with rfl | hx
          · exact ⟨by simp [oltP]; omega, ih1⟩
          · have hx' := ih3 x hx
            exact ⟨by have := hx'.1; simp [oltP] at this ⊢; omega, hx'.2⟩
        · intro tid htid
          simp only [seqDeliveries, List.filterMap_cons, hhd' tid htid]
          exact ih4 tid htid
      · by_cases h2 : k + 1 < sn
        · obtain ⟨ih1, ih2, ih3, ih4⟩ := ih (some sn) hf'
          simp only [flushLoop, if_neg h1, if_pos h2]
          have hle : oleP (some k) (flushLoop handlers sid rest (some sn)).1 :=
            oleP_trans (show oleP (some k) (some sn) by simp [oleP]; omega) ih1
          refine ⟨hle, ?_, ?_, ?_⟩
          · rw [seqDeliveries_append, seqDeliveries_miss_map]
            simp only [List.nil_append, seqDeliveries, List.filterMap_cons, hhd]
            refine List.chain'_cons'.mpr ⟨?_, ih2⟩
            intro y hy
            have hy' := ih3 y (List.mem_of_mem_head? hy)
            simpa [oltP] using hy'.1
          · intro x hx
            rw [seqDeliveries_append, seqDeliveries_miss_map] at hx
            simp only [List.nil_append, seqDeliveries, List.filterMap_cons, hhd] at hx
            rcases List.mem_cons.mp hx with rfl | hx
            · exact ⟨by simp [oltP]; omega, ih1⟩
            · have hx' := ih3 x hx
              exact ⟨by have := hx'.1; simp [oltP] at this ⊢; omega, hx'.2⟩
          · intro tid htid
            rw [seqDeliveries_append, seqDeliveries_miss_map]
            simp only [List.nil_append, seqDeliveries, List.filterMap_cons,
              hhd' tid htid]
            exact ih4 tid htid
        · simp only [flushLoop, if_neg h1, if_neg h2]
          exact ih (some k) hf'

theorem flush_src_eq_pos (q : SStateN) (sid : Nat) (handlers : List Nat)
    (hc : q.pending_queries = 0 ∧ q.pending_samples ≠ []) :
    flush_sequenced_source q sid handlers =
      ({ q with
          last_delivered := (flushLoop handlers sid q.pending_samples q.last_delivered).1,
          pending_samples := [] },
       (flushLoop handlers sid q.pending_samples q.last_delivered).2) := by
  unfold flush_sequenced_source
  rw [if_pos hc]

theorem flush_src_eq_neg (q : SStateN) (sid : Nat) (handlers : List Nat)
    (hc : ¬ (q.pending_queries = 0 ∧ q.pending_samples ≠ [])) :
    flush_sequenced_source q sid handlers = (q, []) := by
  unfold flush_sequenced_source
  rw [if_neg hc]

/-- `flush_sequenced_source` behavior needed by the step lemma. -/
theorem flush_src_ok (q : SStateN) (sid : Nat) (handlers : List Nat)
    (hf : ∀ j w, (j, w) ∈ q.pending_samples →
        w.source_id = some sid ∧ w.source_sn = some j) :
    oleP q.last_delivered (flush_sequenced_source q sid handlers).1.last_delivered ∧
    List.Chain' (· < ·) (seqDeliveries sid (flush_sequenced_source q sid handlers).2) ∧
    (∀ x ∈ seqDeliveries sid (flush_sequenced_source q sid handlers).2,
       oltP q.last_delivered x ∧
       oleP (some x) (flush_sequenced_source q sid handlers).1.last_delivered) ∧
    (∀ tid, tid ≠ sid →
       seqDeliveries tid (flush_sequenced_source q sid handlers).2 = []) ∧
    (flush_sequenced_source q sid handlers).1.pending_queries = q.pending_queries ∧
    (∀ j w, (j, w) ∈ (flush_sequenced_source q sid handlers).1.pending_samples →
       (j, w) ∈ q.pending_samples) := by
  by_cases hc : q.pending_queries = 0 ∧ q.pending_samples ≠ []
  · rw [flush_src_eq_pos q sid handlers hc]
    obtain ⟨h1, h2, h3, h4⟩ := flushLoop_ok handlers sid q.pending_samples q.last_delivered hf
    exact ⟨h1, h2, h3, h4, rfl, by simp⟩
  · rw [flush_src_eq_neg q sid handlers hc]
    refine ⟨oleP_refl _, by simp [seqDeliveries], by simp [seqDeliveries], ?_, rfl, fun j w h => h⟩
    intro tid _
    simp [seqDeliveries]

theorem flushTsLoop_outs : ∀ (entries : List (Ts × Sample)) (last : Option Ts),
    ∀ o ∈ (flushTsLoop entries last).2, ∃ t w, o = Out.deliver w ∧ (t, w) ∈ entries := by
  intro entries
  induction entries with
  | nil => intro last o ho; simp [flushTsLoop] at ho
  | cons p rest ih =>
    intro last o ho
    obtain ⟨t, s⟩ := p
    cases last with
    | none =>
      simp only [flushTsLoop] at ho
      rcases List.mem_cons.mp ho with rfl | ho
      · exact ⟨t, s, rfl, List.mem_cons_self _ _⟩
      · obtain ⟨t', w, hw, hmem⟩ := ih (some t) o ho
        exact ⟨t', w, hw, List.mem_cons_of_mem _ hmem⟩
    | some l =>
      simp only [flushTsLoop] at ho
      by_cases hg : Ts.ltb l t
      · rw [if_pos hg] at ho
        rcases List.mem_cons.mp ho with rfl | ho
        · exact ⟨t, s, rfl, List.mem_cons_self _ _⟩
        · obtain ⟨t', w, hw, hmem⟩ := ih (some t) o ho
          exact ⟨t', w, hw, List.mem_cons_of_mem _ hmem⟩
      · rw [if_neg hg] at ho
        obtain ⟨t', w, hw, hmem⟩ := ih (some l) o ho
        exact ⟨t', w, hw, List.mem_cons_of_mem _ hmem⟩

theorem flush_ts_outs (q : SStateT)
    (hf : ∀ t w, (t, w) ∈ q.pending_samples →
       w.source_id = none ∨ w.source_sn = none) :
    ∀ tid, seqDeliveries tid (flush_timestamped_source q).2 = [] := by
  intro tid
  unfold flush_timestamped_source
  by_cases hc : q.pending_queries = 0 ∧ q.pending_samples ≠ []
  · simp only [if_pos hc]
    rw [seqDeliveries, List.filterMap_eq_nil]
    intro o ho
    obtain ⟨t, w, rfl, hmem⟩ := flushTsLoop_outs q.pending_samples q.last_delivered o ho
    rcases hf t w hmem with h | h <;> simp [seqDeliverSn, h]
  · simp [if_neg hc, seqDeliveries]

theorem flush_ts_sub (q : SStateT) :
    ∀ t w, (t, w) ∈ (flush_timestamped_source q).1.pending_samples →
      (t, w) ∈ q.pending_samples := by
  intro t w h
  unfold flush_timestamped_source at h
  by_cases hc : q.pending_queries = 0 ∧ q.pending_samples ≠ []
  · simp [if_pos hc] at h
  · simpa [if_neg hc] using h

theorem flush_ts_pq (q : SStateT) :
    (flush_timestamped_source q).1.pending_queries = q.pending_queries := by
  unfold flush_timestamped_source
  by_cases hc : q.pending_queries = 0 ∧ q.pending_samples ≠ [] <;> simp [hc]

/- ### InitialRepliesHandler flush-everything lemmas -/

theorem getA_eq_none {β : Type} {k : Nat} {l : List (Nat × β)}
    (h : ∀ p ∈ l, p.1 ≠ k) : getA k l = none := by
  induction l with
  | nil => simp [getA]
  | cons p t ih =>
    obtain ⟨a, b⟩ := p
    have ha : ¬ a = k := h (a, b) (List.mem_cons_self _ _)
    simp only [getA, if_neg ha]
    exact ih (fun p hp => h p (List.mem_cons_of_mem _ hp))

theorem flushAllSeq_getA (handlers : List Nat) :
    ∀ (l : List (Nat × SStateN)) (sid : Nat),
    getA sid (flushAllSeq handlers l).1 =
      (getA sid l).map (fun q => (flush_sequenced_source q sid handlers).1) := by
  intro l
  induction l with
  | nil => intro sid; simp [flushAllSeq, getA]
  | cons p rest ih =>
    intro sid
    obtain ⟨a, q⟩ := p
    simp only [flushAllSeq]
    by_cases ha : a = sid
    · subst ha
      simp [getA]
    · simp only [getA, if_neg ha]
      exact ih sid

theorem mem_flushAllSeq (handlers : List Nat) :
    ∀ (l : List (Nat × SStateN)) (p : Nat × SStateN), p ∈ (flushAllSeq handlers l).1 →
    ∃ q0, (p.1, q0) ∈ l ∧ p.2 = (flush_sequenced_source q0 p.1 handlers).1 := by
  intro l
  induction l with
  | nil => intro p hp; simp [flushAllSeq] at hp
  | cons hd rest ih =>
    intro p hp
    obtain ⟨a, q⟩ := hd
    simp only [flushAllSeq] at hp
    rcases List.mem_cons.mp hp with rfl | hp
    · exact ⟨q, List.mem_cons_self _ _, rfl⟩
    · obtain ⟨q0, hmem, heq⟩ := ih p hp
      exact ⟨q0, List.mem_cons_of_mem _ hmem, heq⟩

theorem flushAllSeq_keyNe (handlers : List Nat) :
    ∀ (l : List (Nat × SStateN)), l.Pairwise keyNe →
    (flushAllSeq handlers l).1.Pairwise keyNe := by
  intro l
  induction l with
  | nil => intro _; simp [flushAllSeq]
  | cons hd rest ih =>
    intro hnd
    obtain ⟨a, q⟩ := hd
    rw [List.pairwise_cons] at hnd
    simp only [flushAllSeq]
    rw [List.pairwise_cons]
    refine ⟨?_, ih hnd.2⟩
    intro p hp
    obtain ⟨q0, hmem, _⟩ := mem_flushAllSeq handlers rest p hp
    exact hnd.1 (p.1, q0) hmem

theorem flushAllSeq_outs (handlers : List Nat) :
    ∀ (l : List (Nat × SStateN)) (tid : Nat),
    l.Pairwise keyNe →
    (∀ p ∈ l, ∀ j w, (j, w) ∈ p.2.pending_samples →
        w.source_id = some p.1 ∧ w.source_sn = some j) →
    seqDeliveries tid (flushAllSeq handlers l).2 =
      (match getA tid l with
       | some q => seqDeliveries tid (flush_sequenced_source q tid handlers).2
       | none => []) := by
  intro l
  induction l with
  | nil => intro tid _ _; simp [flushAllSeq, getA, seqDeliveries]
  | cons hd rest ih =>
    intro tid hnd hf
    obtain ⟨a, q⟩ := hd
    rw [List.pairwise_cons] at hnd
    have hfq : ∀ j w, (j, w) ∈ q.pending_samples →
        w.source_id = some a ∧ w.source_sn = some j :=
      fun j w hw => hf (a, q) (List.mem_cons_self _ _) j w hw
    have hf' : ∀ p ∈ rest, ∀ j w, (j, w) ∈ p.2.pending_samples →
        w.source_id = some p.1 ∧ w.source_sn = some j :=
      fun p hp => hf p (List.mem_cons_of_mem _ hp)
    simp only [flushAllSeq]
    rw [seqDeliveries_append]
    by_cases ha : a = tid
    · subst ha
      have hrest : getA a rest = none :=
        getA_eq_none (fun p hp => (hnd.1 p hp).symm)
      have h2 := ih a hnd.2 hf'
      rw [hrest] at h2
      simp only at h2
      rw [h2, List.append_nil]
      simp [getA]
    · have h1 := (flush_src_ok q a handlers hfq).2.2.2.1 tid
        (fun hh => ha hh.symm)
      rw [h1, List.nil_append]
      have h2 := ih tid hnd.2 hf'
      rw [h2]
      simp only [getA, if_neg ha]

theorem flushAllTs_getA : ∀ (l : List (Nat × SStateT)) (nid : Nat),
    getA nid (flushAllTs l).1 =
      (getA nid l).map (fun q => (flush_timestamped_source q).1) := by
  intro l
  induction l with
  | nil => intro nid; simp [flushAllTs, getA]
  | cons p rest ih =>
    intro nid
    obtain ⟨a, q⟩ := p
    simp only [flushAllTs]
    by_cases ha : a = nid
    · subst ha
      simp [getA]
    · simp only [getA, if_neg ha]
      exact ih nid

theorem mem_flushAllTs :
    ∀ (l : List (Nat × SStateT)) (p : Nat × SStateT), p ∈ (flushAllTs l).1 →
    ∃ q0, (p.1, q0) ∈ l ∧ p.2 = (flush_timestamped_source q0).1 := by
  intro l
  induction l with
  | nil => intro p hp; simp [flushAllTs] at hp
  | cons hd rest ih =>
    intro p hp
    obtain ⟨a, q⟩ := hd
    simp only [flushAllTs] at hp
    rcases List.mem_cons.mp hp with rfl | hp
    · exact ⟨q, List.mem_cons_self _ _, rfl⟩
    · obtain ⟨q0, hmem, heq⟩ := ih p hp
      exact ⟨q0, List.mem_cons_of_mem _ hmem, heq⟩

theorem flushAllTs_keyNe :
    ∀ (l : List (Nat × SStateT)), l.Pairwise keyNe →
    (flushAllTs l).1.Pairwise keyNe := by
  intro l
  induction l with
  | nil => intro _; simp [flushAllTs]
  | cons hd rest ih =>
    intro hnd
    obtain ⟨a, q⟩ := hd
    rw [List.pairwise_cons] at hnd
    simp only [flushAllTs]
    rw [List.pairwise_cons]
    refine ⟨?_, ih hnd.2⟩
    intro p hp
    obtain ⟨q0, hmem, _⟩ := mem_flushAllTs rest p hp
    exact hnd.1 (p.1, q0) hmem

theorem flushAllTs_outs :
    ∀ (l : List (Nat × SStateT)) (tid : Nat),
    (∀ p ∈ l, ∀ t w, (t, w) ∈ p.2.pending_samples →
        w.source_id = none ∨ w.source_sn = none) →
    seqDeliveries tid (flushAllTs l).2 = [] := by
  intro l
  induction l with
  | nil => intro tid _; simp [flushAllTs, seqDeliveries]
  | cons hd rest ih =>
    intro tid hf
    obtain ⟨a, q⟩ := hd
    simp only [flushAllTs]
    rw [seqDeliveries_append]
    rw [flush_ts_outs q (fun t w hw => hf (a, q) (List.mem_cons_self _ _) t w hw) tid]
    rw [List.nil_append]
    exact ih tid (fun p hp => hf p (List.mem_cons_of_mem _ hp))

/- ### Well-formedness of reachable states -/

/-- Samples buffered for a sequenced source record that source's id and
their own map key as sequence number (they were inserted at key
`source_sn` by `handle_sample`). -/
def fieldsOkN (sid : Nat) (q : SStateN) : Prop :=
  ∀ j w, (j, w) ∈ q.pending_samples →
    w.source_id = some sid ∧ w.source_sn = some j

/-- Samples buffered for a timestamped source lack a full (id, sn) pair
(otherwise `handle_sample` would have routed them to the sequenced path). -/
def fieldsOkT (q : SStateT) : Prop :=
  ∀ t w, (t, w) ∈ q.pending_samples →
    w.source_id = none ∨ w.source_sn = none

/-- Well-formedness maintained by every critical section: distinct map
keys, consistent sample fields, sorted sequenced buffers. -/
def WF (st : GState) : Prop :=
  st.sequenced_states.Pairwise keyNe ∧
  st.timestamped_states.Pairwise keyNe ∧
  (∀ p ∈ st.sequenced_states,
     fieldsOkN p.1 p.2 ∧ p.2.pending_samples.Pairwise keyLt) ∧
  (∀ p ∈ st.timestamped_states, fieldsOkT p.2)

theorem oltP_le {o : Option Nat} {x y : Nat} (h : oltP o x) (hxy : x ≤ y) :
    oltP o y := by
  cases o <;> simp_all [oltP] <;> omega

theorem drain_sublist : ∀ (fuel : Nat) (m : SMap) (last : Nat),
    (drain fuel m last).1.Sublist m := by
  intro fuel
  induction fuel with
  | zero => intro m last; simp [drain]
  | succ fuel ih =>
    intro m last
    rw [drain]
    cases hlk : slookup (last + 1) m with
    | none => simp
    | some s =>
      simp only
      exact ((ih (serase (last + 1) m) (last + 1)).trans (serase_sublist _ _))

theorem flush_src_pairwise (q : SStateN) (sid : Nat) (handlers : List Nat)
    (h : q.pending_samples.Pairwise keyLt) :
    (flush_sequenced_source q sid handlers).1.pending_samples.Pairwise keyLt := by
  by_cases hc : q.pending_queries = 0 ∧ q.pending_samples ≠ []
  · rw [flush_src_eq_pos q sid handlers hc]
    simp
  · rw [flush_src_eq_neg q sid handlers hc]
    exact h

theorem flush_src_fields (q : SStateN) (sid : Nat) (handlers : List Nat)
    (h : fieldsOkN sid q) :
    fieldsOkN sid (flush_sequenced_source q sid handlers).1 := by
  intro j w hw
  exact h j w ((flush_src_ok q sid handlers h).2.2.2.2.2 j w hw)

theorem flush_ts_fields (q : SStateT) (h : fieldsOkT q) :
    fieldsOkT (flush_timestamped_source q).1 :=
  fun t w hw => h t w (flush_ts_sub q t w hw)

theorem WF_setA_seq {st : GState} (hwf : WF st) (sid : Nat) (q' : SStateN)
    (hq : fieldsOkN sid q' ∧ q'.pending_samples.Pairwise keyLt)
    {st' : GState}
    (h : st'.sequenced_states = setA sid q' st.sequenced_states)
    (h2 : st'.timestamped_states = st.timestamped_states) : WF st' := by
  obtain ⟨w1, w2, w3, w4⟩ := hwf
  refine ⟨?_, ?_, ?_, ?_⟩
  · rw [h]; exact pairwise_keyNe_setA w1
  · rw [h2]; exact w2
  · rw [h]
    intro p hp
    obtain ⟨a, b⟩ := p
    rcases mem_setA hp with ⟨rfl, rfl⟩ | hp
    · exact hq
    · exact w3 _ hp
  · rw [h2]; exact w4

theorem WF_setA_ts {st : GState} (hwf : WF st) (nid : Nat) (q' : SStateT)
    (hq : fieldsOkT q')
    {st' : GState}
    (h : st'.timestamped_states = setA nid q' st.timestamped_states)
    (h2 : st'.sequenced_states = st.sequenced_states) : WF st' := by
  obtain ⟨w1, w2, w3, w4⟩ := hwf
  refine ⟨?_, ?_, ?_, ?_⟩
  · rw [h2]; exact w1
  · rw [h]; exact pairwise_keyNe_setA w2
  · rw [h2]; exact w3
  · rw [h]
    intro p hp
    obtain ⟨a, b⟩ := p
    rcases mem_setA hp with ⟨rfl, rfl⟩ | hp
    · exact hq
    · exact w4 _ hp

/-- Conclusion proved about every critical section: well-formedness is
preserved, per-source deliveries within the step are strictly increasing,
bracketed between the pre- and post-state `last_delivered`, and
`last_delivered` never decreases. -/
def stepConc (st : GState) (r : GState × List Out) : Prop :=
  WF r.1 ∧
  ∀ tid,
    List.Chain' (· < ·) (seqDeliveries tid r.2) ∧
    (∀ x ∈ seqDeliveries tid r.2,
        oltP (lastSeqOf st tid) x ∧ oleP (some x) (lastSeqOf r.1 tid)) ∧
    oleP (lastSeqOf st tid) (lastSeqOf r.1 tid)

theorem stepConc_nil {st st' : GState} (hwf : WF st')
    (hlast : ∀ tid, oleP (lastSeqOf st tid) (lastSeqOf st' tid)) :
    stepConc st (st', []) := by
  refine ⟨hwf, ?_⟩
  intro tid
  exact ⟨by simp [seqDeliveries], by simp [seqDeliveries], hlast tid⟩

theorem deliverDrain_ok (st : GState) (s : Sample) (sid sn : Nat) (isNew : Bool)
    (q : SStateN) (hwf : WF st)
    (hq : fieldsOkN sid q ∧ q.pending_samples.Pairwise keyLt)
    (hsid : s.source_id = some sid) (hsn : s.source_sn = some sn)
    (hlast : lastSeqOf st sid = q.last_delivered)
    (hpre : oltP q.last_delivered sn) :
    stepConc st ((deliverDrain st s sid sn isNew q).2.1,
                 (deliverDrain st s sid sn isNew q).2.2) := by
  have hdsub := drain_sublist q.pending_samples.length q.pending_samples sn
  have hdge := drain_last_ge q.pending_samples.length q.pending_samples sn
  have hdouts := drain_outs sid q.pending_samples.length q.pending_samples sn hq.1
  constructor
  · -- well-formedness
    refine WF_setA_seq hwf sid
      { q with
          last_delivered :=
            some (drain q.pending_samples.length q.pending_samples sn).2.1,
          pending_samples :=
            (drain q.pending_samples.length q.pending_samples sn).1 }
      ⟨?_, ?_⟩ rfl rfl
    · intro j w hw
      exact hq.1 j w (hdsub.mem hw)
    · exact List.Pairwise.sublist hdsub hq.2
  · intro tid
    have hlast' : lastSeqOf (deliverDrain st s sid sn isNew q).2.1 tid =
        (if tid = sid
         then some (drain q.pending_samples.length q.pending_samples sn).2.1
         else lastSeqOf st tid) := by
      by_cases htid : tid = sid
      · subst htid
        simp [deliverDrain, lastSeqOf, getA_setA_self]
      · simp [deliverDrain, lastSeqOf, getA_setA_ne htid, htid]
    by_cases htid : tid = sid
    · subst htid
      have houts : seqDeliveries tid (deliverDrain st s tid sn isNew q).2.2 =
          sn :: List.range' (sn + 1)
            ((drain q.pending_samples.length q.pending_samples sn).2.1 - sn) := by
        have hd := hdouts tid
        rw [if_pos rfl] at hd
        simp only [deliverDrain, seqDeliveries, List.filterMap_cons]
        have hhd : seqDeliverSn tid (Out.deliver s) = some sn := by
          simp [seqDeliverSn, hsid, hsn]
        rw [hhd]
        simp only [seqDeliveries] at hd
        rw [hd]
      rw [houts, hlast', if_pos rfl]
      refine ⟨?_, ?_, ?_⟩
      · refine List.chain'_cons'.mpr ⟨?_, chain'_lt_range' _ _⟩
        intro y hy
        have : y ∈ List.range' (sn + 1)
            ((drain q.pending_samples.length q.pending_samples sn).2.1 - sn) :=
          List.mem_of_mem_head? hy
        have := List.mem_range'_1.mp this
        omega
      · intro x hx
        rcases List.mem_cons.mp hx with rfl | hx
        · exact ⟨hlast ▸ hpre, by simp [oleP]; omega⟩
        · have := List.mem_range'_1.mp hx
          refine ⟨?_, ?_⟩
          · exact oltP_le (hlast ▸ hpre) (by omega)
          · simp [oleP]; omega
      · rw [hlast]
        cases hql : q.last_delivered with
        | none => trivial
        | some k =>
          have : k < sn := by rw [hql] at hpre; exact hpre
          simp [oleP]
          omega
    · have houts : seqDeliveries tid (deliverDrain st s sid sn isNew q).2.2 = [] := by
        have hd := hdouts tid
        rw [if_neg htid] at hd
        simp only [deliverDrain, seqDeliveries, List.filterMap_cons]
        have hhd : seqDeliverSn tid (Out.deliver s) = none := by
          simp [seqDeliverSn, hsid, hsn]
          intro hh
          exact absurd hh.symm htid
        rw [hhd]
        simpa [seqDeliveries] using hd
      rw [houts, hlast', if_neg htid]
      exact ⟨by simp, by simp, oleP_refl _⟩

theorem lastSeqOf_setA (st : GState) (sid : Nat) (q' : SStateN) (tid : Nat) :
    lastSeqOf { st with sequenced_states := setA sid q' st.sequenced_states } tid =
      if tid = sid then q'.last_delivered else lastSeqOf st tid := by
  by_cases htid : tid = sid
  · subst htid
    simp [lastSeqOf, getA_setA_self]
  · simp [lastSeqOf, getA_setA_ne htid, htid]

theorem stepConc_noseq {st st' : GState} (hwf : WF st') (outs : List Out)
    (hseq : st'.sequenced_states = st.sequenced_states)
    (houts : ∀ tid, seqDeliveries tid outs = []) :
    stepConc st (st', outs) := by
  refine ⟨hwf, fun tid => ?_⟩
  rw [houts tid]
  have hl : lastSeqOf st' tid = lastSeqOf st tid := by simp [lastSeqOf, hseq]
  exact ⟨by simp, by simp, hl ▸ oleP_refl _⟩

theorem seqDeliveries_deliver_nonseq {s : Sample}
    (h : s.source_id = none ∨ s.source_sn = none) :
    ∀ tid, seqDeliveries tid [Out.deliver s] = [] := by
  intro tid
  rcases h with h | h
  · simp [seqDeliveries, seqDeliverSn, h]
  · cases hid : s.source_id <;> simp [seqDeliveries, seqDeliverSn, h, hid]

theorem seqDeliveries_miss_deliver (sid nb : Nat) {sn : Nat} (handlers : List Nat)
    {s : Sample} (hsid : s.source_id = some sid) (hsn : s.source_sn = some sn) :
    ∀ tid, seqDeliveries tid
        (handlers.map (fun h => Out.miss h sid nb) ++ [Out.deliver s]) =
      if tid = sid then [sn] else [] := by
  intro tid
  rw [seqDeliveries_append, seqDeliveries_miss_map, List.nil_append]
  by_cases htid : tid = sid
  · subst htid
    simp [seqDeliveries, seqDeliverSn, hsid, hsn]
  · have : ¬ sid = tid := fun hh => htid hh.symm
    simp [seqDeliveries, seqDeliverSn, hsid, hsn, this, htid]

theorem stepConc_ts_update (st : GState) (nid : Nat) (q' : SStateT)
    (hwf : WF st) (hfq : fieldsOkT q') (outs : List Out)
    (houts : ∀ tid, seqDeliveries tid outs = []) :
    stepConc st
      ({ st with timestamped_states := setA nid q' st.timestamped_states },
       outs) := by
  refine stepConc_noseq ?_ _ rfl houts
  exact WF_setA_ts hwf nid q' hfq rfl rfl

theorem tsIngest_ok (st : GState) (s : Sample) (t : Ts) (hwf : WF st)
    (hnonseq : s.source_id = none ∨ s.source_sn = none) :
    stepConc st ((tsIngest st s t).2.1, (tsIngest st s t).2.2) := by
  have houts1 := seqDeliveries_deliver_nonseq hnonseq
  have houts0 : ∀ tid, seqDeliveries tid ([] : List Out) = [] := by
    intro tid
    simp [seqDeliveries]
  have hfq : fieldsOkT ((getA t.nid st.timestamped_states).getD freshTs) := by
    cases hgetT : getA t.nid st.timestamped_states with
    | some q => exact fun u w hw => hwf.2.2.2 _ (getA_mem hgetT) u w hw
    | none => intro u w hw; simp [freshTs] at hw
  simp only [tsIngest]
  split
  · split
    · exact stepConc_ts_update st t.nid
        ({ (getA t.nid st.timestamped_states).getD freshTs with
            last_delivered := some t })
        hwf (fun u w hw => hfq u w hw) _ houts1
    · refine stepConc_ts_update st t.nid
        ({ (getA t.nid st.timestamped_states).getD freshTs with
            pending_samples := tinsertIfAbsent t s
              ((getA t.nid st.timestamped_states).getD freshTs).pending_samples })
        hwf ?_ _ houts0
      intro u w hw
      rcases mem_tinsertIfAbsent hw with ⟨rfl, rfl⟩ | hw
      · exact hnonseq
      · exact hfq u w hw
  · exact stepConc_ts_update st t.nid _ hwf hfq _ houts0

theorem handle_sample_ok (st : GState) (s : Sample) (hwf : WF st) :
    stepConc st ((handle_sample st s).2.1, (handle_sample st s).2.2) := by
  cases hid : s.source_id with
  | some sid =>
    cases hsn : s.source_sn with
    | some sn =>
      -- sequenced path
      cases hget : getA sid st.sequenced_states with
      | some q =>
        have hq : fieldsOkN sid q ∧ q.pending_samples.Pairwise keyLt :=
          hwf.2.2.1 (sid, q) (getA_mem hget)
        have hlast : lastSeqOf st sid = q.last_delivered := by
          simp [lastSeqOf, hget]
        by_cases hg : st.global_pending_queries ≠ 0
        · -- global gating: buffer
          have heq : handle_sample st s =
              (false, { st with sequenced_states := setA sid ({ q with pending_samples := sinsert sn s q.pending_samples }) st.sequenced_states }, []) := by
            simp only [handle_sample, hid, hsn, hget, if_pos hg]
          rw [heq]
          refine stepConc_nil ?_ ?_
          · refine WF_setA_seq hwf sid _ ⟨?_, pairwise_keyLt_sinsert hq.2⟩ rfl rfl
            intro j w hw
            rcases mem_sinsert hw with ⟨rfl, rfl⟩ | hw
            · exact ⟨hid, hsn⟩
            · exact hq.1 j w hw
          · intro tid
            rw [lastSeqOf_setA]
            by_cases htid : tid = sid
            · rw [if_pos htid, htid, hlast]
              exact oleP_refl _
            · rw [if_neg htid]
              exact oleP_refl _
        · -- no global query in flight
          cases hld : q.last_delivered with
          | none =>
            have heq : handle_sample st s = deliverDrain st s sid sn false q := by
              simp only [handle_sample, hid, hsn, hget, if_neg hg, hld]
            have h2 := deliverDrain_ok st s sid sn false q hwf hq hid hsn
              (hld ▸ hlast) (by simp [hld, oltP])
            rw [heq]
            exact h2
          | some k =>
            by_cases h1 : sn = k + 1
            · have heq : handle_sample st s = deliverDrain st s sid sn false q := by
                simp only [handle_sample, hid, hsn, hget, if_neg hg, hld, if_pos h1]
              have h2 := deliverDrain_ok st s sid sn false q hwf hq hid hsn
                (hld ▸ hlast) (by simp [hld, oltP]; omega)
              rw [heq]
              exact h2
            · by_cases h2 : k < sn
              · by_cases hretr : st.retransmission
                · -- retransmission configured: buffer the out-of-order sample
                  have heq : handle_sample st s =
                      (false, { st with sequenced_states := setA sid ({ q with pending_samples := sinsert sn s q.pending_samples }) st.sequenced_states }, []) := by
                    simp only [handle_sample, hid, hsn, hget, if_neg hg, hld,
                      if_neg h1, if_pos h2, if_pos hretr]
                  rw [heq]
                  refine stepConc_nil ?_ ?_
                  · refine WF_setA_seq hwf sid _ ⟨?_, pairwise_keyLt_sinsert hq.2⟩ rfl rfl
                    intro j w hw
                    rcases mem_sinsert hw with ⟨rfl, rfl⟩ | hw
                    · exact ⟨hid, hsn⟩
                    · exact hq.1 j w hw
                  · intro tid
                    rw [lastSeqOf_setA]
                    by_cases htid : tid = sid
                    · rw [if_pos htid, htid, hlast]
                      exact oleP_refl _
                    · rw [if_neg htid]
                      exact oleP_refl _
                · -- no retransmission: report miss, deliver out of order
                  have heq : handle_sample st s =
                      (false, { st with sequenced_states := setA sid ({ q with last_delivered := some sn }) st.sequenced_states }, st.miss_handlers.map (fun h => Out.miss h sid (sn - k - 1)) ++ [Out.deliver s]) := by
                    simp only [handle_sample, hid, hsn, hget, if_neg hg, hld,
                      if_neg h1, if_pos h2, if_neg hretr]
                  rw [heq]
                  refine ⟨?_, ?_⟩
                  · refine WF_setA_seq hwf sid ({ q with last_delivered := some sn })
                      ⟨?_, hq.2⟩ rfl rfl
                    intro j w hw
                    exact hq.1 j w hw
                  · intro tid
                    rw [seqDeliveries_miss_deliver sid (sn - k - 1) st.miss_handlers
                        hid hsn tid]
                    rw [lastSeqOf_setA]
                    by_cases htid : tid = sid
                    · subst htid
                      rw [if_pos rfl, if_pos rfl]
                      refine ⟨by simp, ?_, ?_⟩
                      · intro x hx
                        rcases List.mem_cons.mp hx with rfl | hx
                        · refine ⟨?_, by simp [oleP]⟩
                          rw [hlast, hld]
                          simpa [oltP] using h2
                        · simp at hx
                      · rw [hlast, hld]
                        simp [oleP]
                        omega
                    · rw [if_neg htid, if_neg htid]
                      exact ⟨by simp, by simp, oleP_refl _⟩
              · -- stale or duplicate: dropped
                have heq : handle_sample st s =
                    (false, { st with sequenced_states := setA sid q st.sequenced_states }, []) := by
                  simp only [handle_sample, hid, hsn, hget, if_neg hg, hld,
                    if_neg h1, if_neg h2]
                rw [heq]
                refine stepConc_nil ?_ ?_
                · exact WF_setA_seq hwf sid q hq rfl rfl
                · intro tid
                  rw [lastSeqOf_setA]
                  by_cases htid : tid = sid
                  · rw [if_pos htid, htid, hlast]
                    exact oleP_refl _
                  · rw [if_neg htid]
                    exact oleP_refl _
      | none =>
        -- newly observed source
        have hq : fieldsOkN sid freshSeq ∧ freshSeq.pending_samples.Pairwise keyLt := by
          constructor
          · intro j w hw
            simp [freshSeq] at hw
          · simp [freshSeq]
        have hlast : lastSeqOf st sid = freshSeq.last_delivered := by
          simp [lastSeqOf, hget, freshSeq]
        by_cases hg : st.global_pending_queries ≠ 0
        · have heq : handle_sample st s =
              (true, { st with sequenced_states := setA sid ({ freshSeq with pending_samples := sinsert sn s freshSeq.pending_samples }) st.sequenced_states }, []) := by
            simp only [handle_sample, hid, hsn, hget, if_pos hg]
          rw [heq]
          refine stepConc_nil ?_ ?_
          · refine WF_setA_seq hwf sid _ ⟨?_, pairwise_keyLt_sinsert hq.2⟩ rfl rfl
            intro j w hw
            rcases mem_sinsert hw with ⟨rfl, rfl⟩ | hw
            · exact ⟨hid, hsn⟩
            · exact hq.1 j w hw
          · intro tid
            rw [lastSeqOf_setA]
            by_cases htid : tid = sid
            · rw [if_pos htid, htid, hlast]
              exact oleP_refl _
            · rw [if_neg htid]
              exact oleP_refl _
        · have heq : handle_sample st s = deliverDrain st s sid sn true freshSeq := by
            simp only [handle_sample, hid, hsn, hget, if_neg hg, freshSeq]
          have h2 := deliverDrain_ok st s sid sn true freshSeq hwf hq hid hsn
            hlast (by simp [freshSeq, oltP])
          rw [heq]
          exact h2
    | none =>
      -- no sequence number: timestamped or orderless path
      cases hts : s.ts with
      | some t =>
        have heq : handle_sample st s = tsIngest st s t := by
          simp only [handle_sample, hid, hsn, hts]
        rw [heq]
        exact tsIngest_ok st s t hwf (Or.inr hsn)
      | none =>
        have heq : handle_sample st s = (false, st, [Out.deliver s]) := by
          simp only [handle_sample, hid, hsn, hts]
        rw [heq]
        exact stepConc_noseq hwf _ rfl (seqDeliveries_deliver_nonseq (Or.inr hsn))
  | none =>
    cases hts : s.ts with
    | some t =>
      have heq : handle_sample st s = tsIngest st s t := by
        simp only [handle_sample, hid, hts]
      rw [heq]
      exact tsIngest_ok st s t hwf (Or.inl hid)
    | none =>
      have heq : handle_sample st s = (false, st, [Out.deliver s]) := by
        simp only [handle_sample, hid, hts]
      rw [heq]
      exact stepConc_noseq hwf _ rfl (seqDeliveries_deliver_nonseq (Or.inl hid))

theorem WF_same_maps {st st' : GState}
    (h1 : st'.sequenced_states = st.sequenced_states)
    (h2 : st'.timestamped_states = st.timestamped_states)
    (hwf : WF st) : WF st' := by
  obtain ⟨w1, w2, w3, w4⟩ := hwf
  exact ⟨h1 ▸ w1, h2 ▸ w2, h1 ▸ w3, h2 ▸ w4⟩

theorem stepConc_pq_seq (st : GState) (sid : Nat) (q : SStateN) (pq : Nat)
    (hwf : WF st) (hget : getA sid st.sequenced_states = some q) :
    stepConc st
      ({ st with sequenced_states := setA sid ({ q with pending_queries := pq }) st.sequenced_states },
       []) := by
  have hq := hwf.2.2.1 (sid, q) (getA_mem hget)
  refine stepConc_nil ?_ ?_
  · exact WF_setA_seq hwf sid ({ q with pending_queries := pq })
      ⟨fun j w hw => hq.1 j w hw, hq.2⟩ rfl rfl
  · intro tid
    rw [lastSeqOf_setA]
    by_cases htid : tid = sid
    · rw [if_pos htid, htid]
      simp only [lastSeqOf, hget]
      exact oleP_refl _
    · rw [if_neg htid]
      exact oleP_refl _

theorem stepEv_ok (st : GState) (e : Ev) (hwf : WF st) :
    stepConc st (stepEv st e) := by
  cases e with
  | sample s => exact handle_sample_ok st s hwf
  | liveRetrans sid =>
    simp only [stepEv]
    cases hget : getA sid st.sequenced_states with
    | none => exact stepConc_nil hwf (fun tid => oleP_refl _)
    | some q =>
      dsimp only
      by_cases hc : st.retransmission = true ∧ q.pending_queries = 0 ∧
          q.pending_samples ≠ []
      · rw [if_pos hc]
        exact stepConc_pq_seq st sid q (q.pending_queries + 1) hwf hget
      · rw [if_neg hc]
        exact stepConc_nil hwf (fun tid => oleP_refl _)
  | periodic sid =>
    simp only [stepEv]
    cases hget : getA sid st.sequenced_states with
    | none => exact stepConc_nil hwf (fun tid => oleP_refl _)
    | some q => exact stepConc_pq_seq st sid q (q.pending_queries + 1) hwf hget
  | livelinessSeq sid =>
    simp only [stepEv]
    cases hget : getA sid st.sequenced_states with
    | some q =>
      simp only [Option.getD_some]
      exact stepConc_pq_seq st sid q (q.pending_queries + 1) hwf hget
    | none =>
      simp only [Option.getD_none]
      refine stepConc_nil ?_ ?_
      · refine WF_setA_seq hwf sid
          ({ freshSeq with pending_queries := freshSeq.pending_queries + 1 })
          ⟨?_, by simp [freshSeq]⟩ rfl rfl
        intro j w hw
        simp [freshSeq] at hw
      · intro tid
        rw [lastSeqOf_setA]
        by_cases htid : tid = sid
        · rw [if_pos htid, htid]
          simp only [lastSeqOf, hget, freshSeq]
          trivial
        · rw [if_neg htid]
          exact oleP_refl _
  | livelinessTs nid =>
    simp only [stepEv]
    cases hget : getA nid st.timestamped_states with
    | some q =>
      simp only [Option.getD_some]
      have hq : fieldsOkT q := hwf.2.2.2 (nid, q) (getA_mem hget)
      exact stepConc_ts_update st nid
        ({ q with pending_queries := q.pending_queries + 1 })
        hwf (fun u w hw => hq u w hw) []
        (fun tid => by simp [seqDeliveries])
    | none =>
      simp only [Option.getD_none]
      refine stepConc_ts_update st nid _ hwf ?_ _ (fun tid => by simp [seqDeliveries])
      intro u w hw
      simp [freshTs] at hw
  | livelinessBad =>
    simp only [stepEv]
    exact stepConc_nil (WF_same_maps rfl rfl hwf) (fun tid => oleP_refl _)
  | dropInitial =>
    simp only [stepEv]
    by_cases hgz : st.global_pending_queries - 1 = 0
    case neg =>
      rw [if_neg hgz]
      exact stepConc_nil (WF_same_maps rfl rfl hwf) (fun tid => oleP_refl _)
    case pos =>
      rw [if_pos hgz]
      -- counter reached zero: flush everything
      refine ⟨?_, ?_⟩
      · refine ⟨?_, ?_, ?_, ?_⟩
        · exact flushAllSeq_keyNe st.miss_handlers st.sequenced_states hwf.1
        · exact flushAllTs_keyNe st.timestamped_states hwf.2.1
        · intro p hp
          obtain ⟨q0, hmem, heq⟩ := mem_flushAllSeq st.miss_handlers st.sequenced_states p hp
          have hq0 := hwf.2.2.1 (p.1, q0) hmem
          rw [heq]
          exact ⟨flush_src_fields q0 p.1 st.miss_handlers hq0.1,
            flush_src_pairwise q0 p.1 st.miss_handlers hq0.2⟩
        · intro p hp
          obtain ⟨q0, hmem, heq⟩ := mem_flushAllTs st.timestamped_states p hp
          have hq0 := hwf.2.2.2 (p.1, q0) hmem
          rw [heq]
          exact flush_ts_fields q0 hq0
      · intro tid
        have htsnil := flushAllTs_outs st.timestamped_states tid
          (fun p hp => hwf.2.2.2 p hp)
        have hseq := flushAllSeq_outs st.miss_handlers st.sequenced_states tid hwf.1
          (fun p hp => (hwf.2.2.1 p hp).1)
        rw [seqDeliveries_append, htsnil, List.append_nil, hseq]
        have hlast' : lastSeqOf { st with global_pending_queries := st.global_pending_queries - 1, sequenced_states := (flushAllSeq st.miss_handlers st.sequenced_states).1, timestamped_states := (flushAllTs st.timestamped_states).1 } tid =
            (getA tid st.sequenced_states).elim none
              (fun q => (flush_sequenced_source q tid st.miss_handlers).1.last_delivered) := by
          simp only [lastSeqOf, flushAllSeq_getA]
          cases getA tid st.sequenced_states <;> simp
        cases hget : getA tid st.sequenced_states with
        | none =>
          rw [hlast']
          rw [hget]
          simp only [Option.elim]
          have : lastSeqOf st tid = none := by simp [lastSeqOf, hget]
          rw [this]
          exact ⟨by simp [seqDeliveries], by simp [seqDeliveries], trivial⟩
        | some q =>
          rw [hlast', hget]
          simp only [Option.elim]
          have hq := hwf.2.2.1 (tid, q) (getA_mem hget)
          obtain ⟨f1, f2, f3, f4, _, _⟩ := flush_src_ok q tid st.miss_handlers hq.1
          have : lastSeqOf st tid = q.last_delivered := by simp [lastSeqOf, hget]
          rw [this]
          exact ⟨f2, f3, f1⟩
  | dropSequenced sid =>
    simp only [stepEv]
    cases hget : getA sid st.sequenced_states with
    | none => exact stepConc_nil hwf (fun tid => oleP_refl _)
    | some q =>
      dsimp only
      have hq := hwf.2.2.1 (sid, q) (getA_mem hget)
      by_cases hgz : st.global_pending_queries = 0
      case neg =>
        rw [if_neg hgz]
        exact stepConc_pq_seq st sid q (q.pending_queries - 1) hwf hget
      case pos =>
        rw [if_pos hgz]
        -- flush after the decrement
        refine ⟨?_, ?_⟩
        · refine WF_setA_seq hwf sid
            (flush_sequenced_source
              ({ q with pending_queries := q.pending_queries - 1 }) sid
              st.miss_handlers).1
            ⟨?_, ?_⟩ rfl rfl
          · exact flush_src_fields _ sid st.miss_handlers (fun j w hw => hq.1 j w hw)
          · exact flush_src_pairwise _ sid st.miss_handlers hq.2
        · intro tid
          obtain ⟨f1, f2, f3, f4, _, _⟩ :=
            flush_src_ok ({ q with pending_queries := q.pending_queries - 1 }) sid
              st.miss_handlers (fun j w hw => hq.1 j w hw)
          rw [lastSeqOf_setA]
          by_cases htid : tid = sid
          · subst htid
            rw [if_pos rfl]
            have : lastSeqOf st tid = q.last_delivered := by simp [lastSeqOf, hget]
            rw [this]
            exact ⟨f2, f3, f1⟩
          · rw [if_neg htid, f4 tid htid]
            exact ⟨by simp, by simp, oleP_refl _⟩
  | dropTimestamped nid =>
    simp only [stepEv]
    cases hget : getA nid st.timestamped_states with
    | none => exact stepConc_nil hwf (fun tid => oleP_refl _)
    | some q =>
      dsimp only
      have hq : fieldsOkT q := hwf.2.2.2 (nid, q) (getA_mem hget)
      by_cases hgz : st.global_pending_queries = 0
      case pos =>
        rw [if_pos hgz]
        refine stepConc_ts_update st nid
          (flush_timestamped_source
            ({ q with pending_queries := q.pending_queries - 1 })).1
          hwf ?_ _ ?_
        · exact flush_ts_fields _ (fun u w hw => hq u w hw)
        · exact flush_ts_outs _ (fun u w hw => hq u w hw)
      case neg =>
        rw [if_neg hgz]
        exact stepConc_ts_update st nid
          ({ q with pending_queries := q.pending_queries - 1 })
          hwf (fun u w hw => hq u w hw) []
          (fun tid => by simp [seqDeliveries])
  | registerMiss =>
    simp only [stepEv]
    exact stepConc_nil (WF_same_maps rfl rfl hwf) (fun tid => oleP_refl _)
  | unregisterMiss h =>
    simp only [stepEv]
    exact stepConc_nil (WF_same_maps rfl rfl hwf) (fun tid => oleP_refl _)

theorem oleP_some_oltP {x y : Nat} {o : Option Nat}
    (h1 : oleP (some x) o) (h2 : oltP o y) : x < y := by
  cases o <;> simp_all [oleP, oltP] <;> omega

theorem runEv_ok (es : List Ev) : ∀ (st : GState), WF st →
    WF (runEv st es).1 ∧
    ∀ tid,
      List.Chain' (· < ·) (seqDeliveries tid (runEv st es).2) ∧
      (∀ x ∈ seqDeliveries tid (runEv st es).2, oltP (lastSeqOf st tid) x) ∧
      oleP (lastSeqOf st tid) (lastSeqOf (runEv st es).1 tid) ∧
      (∀ x ∈ seqDeliveries tid (runEv st es).2,
         oleP (some x) (lastSeqOf (runEv st es).1 tid)) := by
  induction es with
  | nil =>
    intro st hwf
    refine ⟨hwf, fun tid => ?_⟩
    exact ⟨by simp [runEv, seqDeliveries], by simp [runEv, seqDeliveries],
      by simp [runEv]; exact oleP_refl _, by simp [runEv, seqDeliveries]⟩
  | cons e es ih =>
    intro st hwf
    obtain ⟨hwf', hstep⟩ := stepEv_ok st e hwf
    obtain ⟨hwfr, hrun⟩ := ih (stepEv st e).1 hwf'
    have hre : runEv st (e :: es) =
        ((runEv (stepEv st e).1 es).1,
         (stepEv st e).2 ++ (runEv (stepEv st e).1 es).2) := by
      simp [runEv]
    rw [hre]
    refine ⟨hwfr, fun tid => ?_⟩
    obtain ⟨s1, s2, s3⟩ := hstep tid
    obtain ⟨r1, r2, r3, r4⟩ := hrun tid
    rw [seqDeliveries_append]
    refine ⟨?_, ?_, ?_, ?_⟩
    · rw [List.chain'_append]
      refine ⟨s1, r1, ?_⟩
      intro x hx y hy
      have hx' := (s2 x (List.mem_of_mem_getLast? hx)).2
      have hy' := r2 y (List.mem_of_mem_head? hy)
      exact oleP_some_oltP hx' hy'
    · intro x hx
      rcases List.mem_append.mp hx with hx | hx
      · exact (s2 x hx).1
      · exact oleP_oltP s3 (r2 x hx)
    · exact oleP_trans s3 r3
    · intro x hx
      rcases List.mem_append.mp hx with hx | hx
      · exact oleP_trans (s2 x hx).2 r3
      · exact r4 x hx

theorem initState_WF (hist retr : Bool) : WF (initState hist retr) := by
  refine ⟨?_, ?_, ?_, ?_⟩ <;> simp [initState]

/- ### The buffer/last-delivered invariant (claim C9) -/

/-- Invariant of a sequenced source state maintained while
`global_pending_queries` stays 0: nothing is buffered before the first
delivery or when retransmission is off, and buffered keys strictly exceed
`last_delivered + 1` (the successor is never buffered: the drain loop
would have consumed it). -/
def inv9N (retr : Bool) (q : SStateN) : Prop :=
  (q.last_delivered = none → q.pending_samples = []) ∧
  (retr = false → q.pending_samples = []) ∧
  (∀ k, q.last_delivered = some k → ∀ j w, (j, w) ∈ q.pending_samples → k + 1 < j)

/-- Invariant of a timestamped source state: the buffer is empty whenever
no per-source query is pending, and buffered timestamps strictly exceed
`last_delivered`. -/
def inv9T (q : SStateT) : Prop :=
  (q.pending_queries = 0 → q.pending_samples = []) ∧
  (∀ u, q.last_delivered = some u →
     ∀ t w, (t, w) ∈ q.pending_samples → Ts.ltb u t = true)

/-- Global invariant of the restricted runs (no history, no
malformed-liveliness re-gating): the counter is 0 and every source state
satisfies its buffer invariant. -/
def Inv9 (st : GState) : Prop :=
  st.global_pending_queries = 0 ∧
  (∀ p ∈ st.sequenced_states, inv9N st.retransmission p.2) ∧
  (∀ p ∈ st.timestamped_states, inv9T p.2)

theorem inv9N_flush (retr : Bool) (q : SStateN) (sid : Nat) (handlers : List Nat)
    (h : inv9N retr q) : inv9N retr (flush_sequenced_source q sid handlers).1 := by
  by_cases hc : q.pending_queries = 0 ∧ q.pending_samples ≠ []
  · rw [flush_src_eq_pos q sid handlers hc]
    exact ⟨fun _ => rfl, fun _ => rfl, fun k _ j w hw => by simp at hw⟩
  · rw [flush_src_eq_neg q sid handlers hc]
    exact h

theorem flush_ts_eq_pos (q : SStateT)
    (hc : q.pending_queries = 0 ∧ q.pending_samples ≠ []) :
    flush_timestamped_source q =
      ({ q with
          last_delivered := (flushTsLoop q.pending_samples q.last_delivered).1,
          pending_samples := [] },
       (flushTsLoop q.pending_samples q.last_delivered).2) := by
  unfold flush_timestamped_source
  rw [if_pos hc]

theorem flush_ts_eq_neg (q : SStateT)
    (hc : ¬ (q.pending_queries = 0 ∧ q.pending_samples ≠ [])) :
    flush_timestamped_source q = (q, []) := by
  unfold flush_timestamped_source
  rw [if_neg hc]

theorem inv9T_flush (q : SStateT)
    (h2 : ∀ u, q.last_delivered = some u →
        ∀ t w, (t, w) ∈ q.pending_samples → Ts.ltb u t = true) :
    inv9T (flush_timestamped_source q).1 := by
  by_cases hc : q.pending_queries = 0 ∧ q.pending_samples ≠ []
  · rw [flush_ts_eq_pos q hc]
    exact ⟨fun _ => rfl, fun u _ t w hw => by simp at hw⟩
  · rw [flush_ts_eq_neg q hc]
    refine ⟨?_, h2⟩
    intro hpq
    by_contra hne
    exact hc ⟨hpq, hne⟩

theorem Inv9_setA_seq {st : GState} (hinv : Inv9 st) (sid : Nat) (q' : SStateN)
    (hq : inv9N st.retransmission q')
    {st' : GState}
    (hg : st'.global_pending_queries = st.global_pending_queries)
    (hr : st'.retransmission = st.retransmission)
    (h : st'.sequenced_states = setA sid q' st.sequenced_states)
    (h2 : st'.timestamped_states = st.timestamped_states) : Inv9 st' := by
  refine ⟨hg ▸ hinv.1, ?_, h2 ▸ hinv.2.2⟩
  rw [h, hr]
  intro p hp
  obtain ⟨a, b⟩ := p
  rcases mem_setA hp with ⟨rfl, rfl⟩ | hp
  · exact hq
  · exact hinv.2.1 _ hp

theorem Inv9_setA_ts {st : GState} (hinv : Inv9 st) (nid : Nat) (q' : SStateT)
    (hq : inv9T q')
    {st' : GState}
    (hg : st'.global_pending_queries = st.global_pending_queries)
    (hr : st'.retransmission = st.retransmission)
    (h : st'.timestamped_states = setA nid q' st.timestamped_states)
    (h2 : st'.sequenced_states = st.sequenced_states) : Inv9 st' := by
  refine ⟨hg ▸ hinv.1, ?_, ?_⟩
  · rw [h2, hr]
    exact hinv.2.1
  · rw [h]
    intro p hp
    obtain ⟨a, b⟩ := p
    rcases mem_setA hp with ⟨rfl, rfl⟩ | hp
    · exact hq
    · exact hinv.2.2 _ hp

theorem tsIngest_inv9 (st : GState) (s : Sample) (t : Ts) (hinv : Inv9 st) :
    Inv9 (tsIngest st s t).2.1 := by
  have hq : inv9T ((getA t.nid st.timestamped_states).getD freshTs) := by
    cases hget : getA t.nid st.timestamped_states with
    | some q =>
      simp only [Option.getD_some]
      exact hinv.2.2 _ (getA_mem hget)
    | none =>
      simp only [Option.getD_none]
      exact ⟨fun _ => rfl, fun u hu v w hw => by simp [freshTs] at hw⟩
  simp only [tsIngest]
  split
  · split
    · -- deliver: the buffer was empty (pending_queries = 0)
      rename_i hz
      simp only [Bool.and_eq_true, decide_eq_true_eq] at hz
      refine Inv9_setA_ts hinv t.nid _ ?_ rfl rfl rfl rfl
      refine ⟨fun _ => hq.1 hz.2, ?_⟩
      intro u hu v w hw
      rw [hq.1 hz.2] at hw
      simp at hw
    · -- buffer (first insertion wins)
      rename_i hguard hz
      simp only [Bool.and_eq_true, decide_eq_true_eq] at hz
      refine Inv9_setA_ts hinv t.nid _ ?_ rfl rfl rfl rfl
      refine ⟨?_, ?_⟩
      · intro hpq
        exact absurd ⟨hinv.1, hpq⟩ hz
      · intro u hu v w hw
        rcases mem_tinsertIfAbsent hw with ⟨rfl, rfl⟩ | hw
        · rw [hu] at hguard
          exact hguard
        · exact hq.2 u hu v w hw
  · exact Inv9_setA_ts hinv t.nid _ hq rfl rfl rfl rfl

theorem handle_sample_inv9 (st : GState) (s : Sample) (hwf : WF st)
    (hinv : Inv9 st) : Inv9 (handle_sample st s).2.1 := by
  have hgz : ¬ st.global_pending_queries ≠ 0 := fun hh => hh hinv.1
  cases hid : s.source_id with
  | some sid =>
    cases hsn : s.source_sn with
    | some sn =>
      cases hget : getA sid st.sequenced_states with
      | some q =>
        have hq : inv9N st.retransmission q := hinv.2.1 (sid, q) (getA_mem hget)
        have hwfq := hwf.2.2.1 (sid, q) (getA_mem hget)
        cases hld : q.last_delivered with
        | none =>
          have heq : handle_sample st s = deliverDrain st s sid sn false q := by
            simp only [handle_sample, hid, hsn, hget, if_neg hgz, hld]
          rw [heq]
          have hemp : q.pending_samples = [] := hq.1 hld
          refine Inv9_setA_seq hinv sid _ ?_ rfl rfl rfl rfl
          rw [hemp]
          refine ⟨?_, fun _ => by simp [drain], ?_⟩
          · intro hh
            simp [drain]
          · intro k _ j w hw
            simp [drain] at hw
        | some k =>
          by_cases h1 : sn = k + 1
          · have heq : handle_sample st s = deliverDrain st s sid sn false q := by
              simp only [handle_sample, hid, hsn, hget, if_neg hgz, hld, if_pos h1]
            rw [heq]
            refine Inv9_setA_seq hinv sid _ ?_ rfl rfl rfl rfl
            refine ⟨by simp, ?_, ?_⟩
            · intro hr
              have hemp := hq.2.1 hr
              rw [hemp]
              simp [drain]
            · intro k' hk' j w hw
              obtain rfl := Option.some.inj hk'
              refine drain_gt q.pending_samples.length q.pending_samples sn
                (le_refl _) (keyLt_keyNe hwfq.2) ?_ j w hw
              intro j' w' hj'
              have := hq.2.2 k hld j' w' hj'
              omega
          · by_cases h2 : k < sn
            · by_cases hretr : st.retransmission
              · have heq : handle_sample st s = (false, { st with sequenced_states := setA sid ({ q with pending_samples := sinsert sn s q.pending_samples }) st.sequenced_states }, []) := by
                  simp only [handle_sample, hid, hsn, hget, if_neg hgz, hld,
                    if_neg h1, if_pos h2, if_pos hretr]
                rw [heq]
                refine Inv9_setA_seq hinv sid _ ?_ rfl rfl rfl rfl
                refine ⟨by simp [hld], ?_, ?_⟩
                · intro hr
                  rw [hr] at hretr
                  simp at hretr
                · intro k' hk' j w hw
                  rw [hld] at hk'
                  obtain rfl := Option.some.inj hk'
                  rcases mem_sinsert hw with ⟨rfl, rfl⟩ | hw
                  · omega
                  · exact hq.2.2 k hld j w hw
              · have hretr' : st.retransmission = false := by
                  simpa using hretr
                have hemp := hq.2.1 hretr'
                have heq : handle_sample st s = (false, { st with sequenced_states := setA sid ({ q with last_delivered := some sn }) st.sequenced_states }, st.miss_handlers.map (fun h => Out.miss h sid (sn - k - 1)) ++ [Out.deliver s]) := by
                  simp only [handle_sample, hid, hsn, hget, if_neg hgz, hld,
                    if_neg h1, if_pos h2, if_neg hretr]
                rw [heq]
                refine Inv9_setA_seq hinv sid _ ?_ rfl rfl rfl rfl
                refine ⟨by simp, fun _ => hemp, ?_⟩
                intro k' _ j w hw
                rw [hemp] at hw
                simp at hw
            · have heq : handle_sample st s = (false, { st with sequenced_states := setA sid q st.sequenced_states }, []) := by
                simp only [handle_sample, hid, hsn, hget, if_neg hgz, hld,
                  if_neg h1, if_neg h2]
              rw [heq]
              exact Inv9_setA_seq hinv sid q hq rfl rfl rfl rfl
      | none =>
        have heq : handle_sample st s = deliverDrain st s sid sn true freshSeq := by
          simp only [handle_sample, hid, hsn, hget, if_neg hgz, freshSeq]
        rw [heq]
        refine Inv9_setA_seq hinv sid _ ?_ rfl rfl rfl rfl
        refine ⟨?_, fun _ => by simp [freshSeq, drain], ?_⟩
        · intro hh
          simp [freshSeq, drain]
        · intro k _ j w hw
          simp [freshSeq, drain] at hw
    | none =>
      cases hts : s.ts with
      | some t =>
        have heq : handle_sample st s = tsIngest st s t := by
          simp only [handle_sample, hid, hsn, hts]
        rw [heq]
        exact tsIngest_inv9 st s t hinv
      | none =>
        have heq : handle_sample st s = (false, st, [Out.deliver s]) := by
          simp only [handle_sample, hid, hsn, hts]
        rw [heq]
        exact hinv
  | none =>
    cases hts : s.ts with
    | some t =>
      have heq : handle_sample st s = tsIngest st s t := by
        simp only [handle_sample, hid, hts]
      rw [heq]
      exact tsIngest_inv9 st s t hinv
    | none =>
      have heq : handle_sample st s = (false, st, [Out.deliver s]) := by
        simp only [handle_sample, hid, hts]
      rw [heq]
      exact hinv

theorem stepEv_inv9 (st : GState) (e : Ev) (hwf : WF st) (hinv : Inv9 st)
    (hne : e ≠ Ev.livelinessBad) : Inv9 (stepEv st e).1 := by
  cases e with
  | sample s => exact handle_sample_inv9 st s hwf hinv
  | liveRetrans sid =>
    simp only [stepEv]
    cases hget : getA sid st.sequenced_states with
    | none => exact hinv
    | some q =>
      dsimp only
      have hq : inv9N st.retransmission q := hinv.2.1 (sid, q) (getA_mem hget)
      by_cases hc : st.retransmission = true ∧ q.pending_queries = 0 ∧
          q.pending_samples ≠ []
      · rw [if_pos hc]
        refine Inv9_setA_seq hinv sid _ ?_ rfl rfl rfl rfl
        exact hq
      · rw [if_neg hc]
        exact hinv
  | periodic sid =>
    simp only [stepEv]
    cases hget : getA sid st.sequenced_states with
    | none => exact hinv
    | some q =>
      dsimp only
      refine Inv9_setA_seq hinv sid _ ?_ rfl rfl rfl rfl
      exact hinv.2.1 (sid, q) (getA_mem hget)
  | livelinessSeq sid =>
    simp only [stepEv]
    cases hget : getA sid st.sequenced_states with
    | some q =>
      simp only [Option.getD_some]
      refine Inv9_setA_seq hinv sid _ ?_ rfl rfl rfl rfl
      exact hinv.2.1 (sid, q) (getA_mem hget)
    | none =>
      simp only [Option.getD_none]
      refine Inv9_setA_seq hinv sid _ ?_ rfl rfl rfl rfl
      exact ⟨fun _ => rfl, fun _ => rfl, fun k hk => by simp [freshSeq] at hk⟩
  | livelinessTs nid =>
    simp only [stepEv]
    cases hget : getA nid st.timestamped_states with
    | some q =>
      simp only [Option.getD_some]
      have hq : inv9T q := hinv.2.2 (nid, q) (getA_mem hget)
      refine Inv9_setA_ts hinv nid _ ?_ rfl rfl rfl rfl
      exact ⟨fun hh => by simp at hh, hq.2⟩
    | none =>
      simp only [Option.getD_none]
      refine Inv9_setA_ts hinv nid _ ?_ rfl rfl rfl rfl
      exact ⟨fun _ => rfl, fun u hu => by simp [freshTs] at hu ⊢⟩
  | livelinessBad => exact absurd rfl hne
  | dropInitial =>
    simp only [stepEv]
    have hgz : st.global_pending_queries - 1 = 0 := by
      rw [hinv.1]
    rw [if_pos hgz]
    refine ⟨hgz, ?_, ?_⟩
    · intro p hp
      obtain ⟨q0, hmem, heqp⟩ := mem_flushAllSeq st.miss_handlers st.sequenced_states p hp
      rw [heqp]
      exact inv9N_flush _ q0 p.1 st.miss_handlers (hinv.2.1 (p.1, q0) hmem)
    · intro p hp
      obtain ⟨q0, hmem, heqp⟩ := mem_flushAllTs st.timestamped_states p hp
      rw [heqp]
      exact inv9T_flush q0 (hinv.2.2 (p.1, q0) hmem).2
  | dropSequenced sid =>
    simp only [stepEv]
    cases hget : getA sid st.sequenced_states with
    | none => exact hinv
    | some q =>
      dsimp only
      have hq : inv9N st.retransmission q := hinv.2.1 (sid, q) (getA_mem hget)
      rw [if_pos hinv.1]
      refine Inv9_setA_seq hinv sid _ ?_ rfl rfl rfl rfl
      exact inv9N_flush _ _ sid st.miss_handlers hq
  | dropTimestamped nid =>
    simp only [stepEv]
    cases hget : getA nid st.timestamped_states with
    | none => exact hinv
    | some q =>
      dsimp only
      have hq : inv9T q := hinv.2.2 (nid, q) (getA_mem hget)
      rw [if_pos hinv.1]
      refine Inv9_setA_ts hinv nid _ ?_ rfl rfl rfl rfl
      exact inv9T_flush _ hq.2
  | registerMiss =>
    simp only [stepEv]
    exact ⟨hinv.1, hinv.2.1, hinv.2.2⟩
  | unregisterMiss h =>
    simp only [stepEv]
    exact ⟨hinv.1, hinv.2.1, hinv.2.2⟩

theorem runEv_inv9 (es : List Ev) : ∀ (st : GState), WF st → Inv9 st →
    (∀ e ∈ es, e ≠ Ev.livelinessBad) → Inv9 (runEv st es).1 := by
  induction es with
  | nil => intro st _ hinv _; exact hinv
  | cons e es ih =>
    intro st hwf hinv hne
    have hre : (runEv st (e :: es)).1 = (runEv (stepEv st e).1 es).1 := by
      simp [runEv]
    rw [hre]
    exact ih (stepEv st e).1 ((stepEv_ok st e hwf).1)
      (stepEv_inv9 st e hwf hinv (hne e (List.mem_cons_self _ _)))
      (fun e' he' => hne e' (List.mem_cons_of_mem _ he'))

/- ### Specification-side flush description (claim C4) -/

/-- Delivery condition as claim C4 words it: `last_delivered == None` or
`sn == last_delivered + 1`.  (Spec-side definition, for the refinement
proof against the embedded `flushLoop`.) -/
def claimDeliver (last : Option Nat) (sn : Nat) : Bool :=
  match last with
  | none => true
  | some k => sn == k + 1

/-- Gap condition as claim C4 words it: `sn > last_delivered + 1`. -/
def claimGap (last : Option Nat) (sn : Nat) : Bool :=
  match last with
  | none => false
  | some k => decide (k + 1 < sn)

/-- The flush iteration exactly as claim C4 words it: deliver and advance
on `None`-or-successor, emit one miss of `nb = sn - last_delivered - 1` to
every registered handler then deliver and advance on a gap, drop without
delivery otherwise. -/
def claimFlushLoop (handlers : List Nat) (sid : Nat) :
    List (Nat × Sample) → Option Nat → Option Nat × List Out
  | [], last => (last, [])
  | (sn, s) :: rest, last =>
    if claimDeliver last sn then
      let r := claimFlushLoop handlers sid rest (some sn)
      (r.1, Out.deliver s :: r.2)
    else if claimGap last sn then
      let r := claimFlushLoop handlers sid rest (some sn)
      (r.1, handlers.map (fun h => Out.miss h sid (sn - last.getD 0 - 1))
              ++ Out.deliver s :: r.2)
    else
      claimFlushLoop handlers sid rest last

theorem flushLoop_eq_claim (handlers : List Nat) (sid : Nat) :
    ∀ (entries : List (Nat × Sample)) (last : Option Nat),
    flushLoop handlers sid entries last =
      claimFlushLoop handlers sid entries last := by
  intro entries
  induction entries with
  | nil => intro last; rfl
  | cons p rest ih =>
    intro last
    obtain ⟨sn, s⟩ := p
    cases last with
    | none =>
      have hc : claimDeliver none sn = true := rfl
      simp only [flushLoop, claimFlushLoop, hc, if_pos, ih]
    | some k =>
      by_cases h1 : sn = k + 1
      · have hc : claimDeliver (some k) sn = true := by
          simp [claimDeliver, h1]
        simp only [flushLoop, claimFlushLoop, hc, if_pos h1, ih]
        simp
      · have hc : claimDeliver (some k) sn = false := by
          simp [claimDeliver, h1]
        by_cases h2 : k + 1 < sn
        · have hg : claimGap (some k) sn = true := by
            simp [claimGap, h2]
          simp only [flushLoop, claimFlushLoop, hc, hg, if_neg h1, if_pos h2, ih]
          simp [Option.getD]
        · have hg : claimGap (some k) sn = false := by
            simp [claimGap, h2]
          simp only [flushLoop, claimFlushLoop, hc, hg, if_neg h1, if_neg h2, ih]
          simp

/- ### The claims -/

/-- C1: for every sequenced source and every interleaving of the
subscriber's critical sections (in particular every interleaving of
`handle_sample` and `flush_sequenced_source` calls, the latter occurring
inside the reply-guard drops), the sequence numbers delivered to the
application callback for that source are strictly increasing, and the
source's `last_delivered` is monotonically non-decreasing across every
further mutation. -/
theorem c1_monotonic_delivery (hist retr : Bool) (es : List Ev) (sid : Nat) :
    List.Chain' (· < ·) (seqDeliveries sid (runEv (initState hist retr) es).2) ∧
    ∀ e : Ev, oleP (lastSeqOf (runEv (initState hist retr) es).1 sid)
        (lastSeqOf (stepEv (runEv (initState hist retr) es).1 e).1 sid) := by
  have h := runEv_ok es (initState hist retr) (initState_WF hist retr)
  refine ⟨(h.2 sid).1, ?_⟩
  intro e
  exact ((stepEv_ok (runEv (initState hist retr) es).1 e h.1).2 sid).2.2

/-- C2: each `(source_id, source_sn)` pair is delivered to the application
callback at most once over any run (live samples, query replies — exact
duplicates included — interleaved with flushes): the per-source delivered
sequence-number list has no duplicates. -/
theorem c2_no_duplicate_delivery (hist retr : Bool) (es : List Ev) (sid : Nat) :
    (seqDeliveries sid (runEv (initState hist retr) es).2).Nodup := by
  have h := (runEv_ok es (initState hist retr) (initState_WF hist retr)).2 sid
  have hp : List.Pairwise (· < ·)
      (seqDeliveries sid (runEv (initState hist retr) es).2) :=
    List.chain'_iff_pairwise.mp h.1
  exact hp.imp (fun hlt => Nat.ne_of_lt hlt)

/-- C4: `flush_sequenced_source`, invoked with `pending_queries = 0` on a
non-empty buffer, leaves the buffer empty and processes the detached
entries in ascending order exactly as the claim states (deliver on
`None`-or-successor, one miss of `nb = sn - last_delivered - 1` to every
registered handler then deliver on a gap, drop duplicates), as captured by
the spec-side `claimFlushLoop`. -/
theorem c4_flush_behavior (q : SStateN) (sid : Nat) (handlers : List Nat)
    (h1 : q.pending_queries = 0) (h2 : q.pending_samples ≠ []) :
    (flush_sequenced_source q sid handlers).1.pending_samples = [] ∧
    (flush_sequenced_source q sid handlers).1.last_delivered =
      (claimFlushLoop handlers sid q.pending_samples q.last_delivered).1 ∧
    (flush_sequenced_source q sid handlers).2 =
      (claimFlushLoop handlers sid q.pending_samples q.last_delivered).2 := by
  rw [flush_src_eq_pos q sid handlers ⟨h1, h2⟩]
  rw [flushLoop_eq_claim]
  exact ⟨rfl, rfl, rfl⟩

/-- C4 witness: a concrete flush of buffer `{2 ↦ s2, 5 ↦ s5}` with
`last_delivered = 1`. -/
theorem c4_flush_behavior_witness :
    ((⟨some 1, 0, [(2, ⟨some 0, some 2, none, 2⟩), (5, ⟨some 0, some 5, none, 5⟩)]⟩ : SStateN).pending_queries = 0 ∧
     (⟨some 1, 0, [(2, ⟨some 0, some 2, none, 2⟩), (5, ⟨some 0, some 5, none, 5⟩)]⟩ : SStateN).pending_samples ≠ []) ∧
    ((flush_sequenced_source ⟨some 1, 0, [(2, ⟨some 0, some 2, none, 2⟩), (5, ⟨some 0, some 5, none, 5⟩)]⟩ 0 [7]).1.pending_samples = [] ∧
     (flush_sequenced_source ⟨some 1, 0, [(2, ⟨some 0, some 2, none, 2⟩), (5, ⟨some 0, some 5, none, 5⟩)]⟩ 0 [7]).1.last_delivered =
       (claimFlushLoop [7] 0 [(2, ⟨some 0, some 2, none, 2⟩), (5, ⟨some 0, some 5, none, 5⟩)] (some 1)).1 ∧
     (flush_sequenced_source ⟨some 1, 0, [(2, ⟨some 0, some 2, none, 2⟩), (5, ⟨some 0, some 5, none, 5⟩)]⟩ 0 [7]).2 =
       (claimFlushLoop [7] 0 [(2, ⟨some 0, some 2, none, 2⟩), (5, ⟨some 0, some 5, none, 5⟩)] (some 1)).2) :=
  ⟨⟨by decide, by decide⟩,
   c4_flush_behavior ⟨some 1, 0, [(2, ⟨some 0, some 2, none, 2⟩), (5, ⟨some 0, some 5, none, 5⟩)]⟩ 0 [7]
     (by decide) (by decide)⟩

/-- C5: when a gap `[a+1..b-1]` is closed by delivering `b` without the
interior — on the live path with retransmission disabled, and inside the
flush loop — exactly one miss notification with `nb = b - a - 1` is
emitted to each registered handler, and all of them strictly precede the
delivery of `b` in the output order. -/
theorem c5_miss_accounting :
    (∀ (st : GState) (s : Sample) (sid a sn : Nat) (q : SStateN),
       st.global_pending_queries = 0 → st.retransmission = false →
       s.source_id = some sid → s.source_sn = some sn →
       getA sid st.sequenced_states = some q → q.last_delivered = some a →
       a + 1 < sn →
       (handle_sample st s).2.2 =
         st.miss_handlers.map (fun h => Out.miss h sid (sn - a - 1))
           ++ [Out.deliver s]) ∧
    (∀ (handlers : List Nat) (sid a sn : Nat) (s : Sample)
       (rest : List (Nat × Sample)),
       a + 1 < sn →
       (flushLoop handlers sid ((sn, s) :: rest) (some a)).2 =
         handlers.map (fun h => Out.miss h sid (sn - a - 1))
           ++ Out.deliver s :: (flushLoop handlers sid rest (some sn)).2) := by
  constructor
  · intro st s sid a sn q hg hr hid hsn hget hld hgap
    have hgz : ¬ st.global_pending_queries ≠ 0 := fun hh => hh hg
    have h1 : ¬ sn = a + 1 := by omega
    have h2 : a < sn := by omega
    have hretr : ¬ (st.retransmission = true) := by simp [hr]
    simp only [handle_sample, hid, hsn, hget, if_neg hgz, hld, if_neg h1,
      if_pos h2, if_neg hretr]
  · intro handlers sid a sn s rest hgap
    have h1 : ¬ sn = a + 1 := by omega
    simp only [flushLoop, if_neg h1, if_pos hgap]

/-- C5 witness: live path with `last_delivered = 1`, incoming `sn = 4`,
two registered handlers; flush path with the same gap. -/
theorem c5_miss_accounting_witness :
    ((handle_sample ⟨0, 0, [(0, ⟨some 1, 0, []⟩)], [], false, [5, 6]⟩
        ⟨some 0, some 4, none, 4⟩).2.2 =
      [Out.miss 5 0 2, Out.miss 6 0 2, Out.deliver ⟨some 0, some 4, none, 4⟩]) ∧
    ((flushLoop [5] 0 [(4, ⟨some 0, some 4, none, 4⟩)] (some 1)).2 =
      [Out.miss 5 0 2, Out.deliver ⟨some 0, some 4, none, 4⟩]) := by
  constructor
  · rw [c5_miss_accounting.1 ⟨0, 0, [(0, ⟨some 1, 0, []⟩)], [], false, [5, 6]⟩
      ⟨some 0, some 4, none, 4⟩ 0 1 4 ⟨some 1, 0, []⟩ (by decide) (by decide)
      (by decide) (by decide) (by decide) (by decide) (by decide)]
    decide
  · rw [c5_miss_accounting.2 [5] 0 1 4 ⟨some 0, some 4, none, 4⟩ [] (by decide)]
    decide

/-- C6: `global_pending_queries` is initialized to 1 iff a history
configuration is present; a liveliness `Put` whose zid fails to parse
increments it by exactly 1; the drop of an `InitialRepliesHandler`
decrements it by exactly 1 (natural-number subtraction is saturating,
so 0 stays 0). -/
theorem c6_global_counter :
    (∀ hist retr : Bool, (initState hist retr).global_pending_queries =
        if hist then 1 else 0) ∧
    (∀ st : GState, (stepEv st Ev.livelinessBad).1.global_pending_queries =
        st.global_pending_queries + 1) ∧
    (∀ st : GState, (stepEv st Ev.dropInitial).1.global_pending_queries =
        st.global_pending_queries - 1) := by
  refine ⟨fun hist retr => rfl, fun st => rfl, fun st => ?_⟩
  simp only [stepEv]
  by_cases hgz : st.global_pending_queries - 1 = 0
  · rw [if_pos hgz]
  · rw [if_neg hgz]

/-- C8: `seq_num_range` produces exactly the four selector shapes of the
spec, and both the periodic probe and the live retransmission trigger call
it with `start = last_delivered + 1` when something was delivered and
`start = None` otherwise, `end` always `None`. -/
theorem c8_selector_shapes :
    (∀ a b : Nat, seq_num_range (some a) (some b) =
        "_sn=" ++ toString a ++ ".." ++ toString b) ∧
    (∀ a : Nat, seq_num_range (some a) none = "_sn=" ++ toString a ++ "..") ∧
    (∀ b : Nat, seq_num_range none (some b) = "_sn=.." ++ toString b) ∧
    (seq_num_range none none = "_sn=..") ∧
    (∀ k : Nat, periodicProbeSelector (some k) = seq_num_range (some (k + 1)) none) ∧
    (periodicProbeSelector none = seq_num_range none none) ∧
    (∀ k : Nat, retransProbeSelector (some k) = seq_num_range (some (k + 1)) none) ∧
    (retransProbeSelector none = seq_num_range none none) := by
  exact ⟨fun a b => rfl, fun a => rfl, fun b => rfl, rfl,
    fun k => rfl, rfl, fun k => rfl, rfl⟩

/- Claim C3 -/

/-- Two samples with the same source and sequence number but different
payloads, for the C3 counterexample. -/
def c3s1 : Sample := ⟨some 0, some 1, none, 7⟩

/-- The second (later) copy in the C3 counterexample. -/
def c3s2 : Sample := ⟨some 0, some 1, none, 8⟩

/-- C3 counterexample: with history enabled (`global_pending_queries = 1`),
ingesting two samples with the same sequence number leaves the SECOND
sample in the buffer — `BTreeMap::insert` replaces on the sequenced path —
refuting "the buffered entry keeps the first-inserted sample" for that
path. -/
theorem c3_counterexample :
    (getA 0 (runEv (initState true false)
        [Ev.sample c3s1, Ev.sample c3s2]).1.sequenced_states).map
      (fun q => slookup 1 q.pending_samples) = some (some c3s2) ∧
    c3s2 ≠ c3s1 := by decide

/-- C3 amended: on the two sequenced buffering paths (history-gated
line 423 and retransmission line 427) a later copy with the same sequence
number REPLACES the buffered entry (last insertion wins, `BTreeMap::insert`);
only the timestamped path (line 467, `entry().or_insert`) keeps the
first-inserted sample. -/
theorem c3_amended :
    (∀ (st : GState) (s : Sample) (sid sn : Nat) (q : SStateN) (v : Sample),
       st.global_pending_queries ≠ 0 →
       s.source_id = some sid → s.source_sn = some sn →
       getA sid st.sequenced_states = some q →
       slookup sn q.pending_samples = some v →
       (getA sid (handle_sample st s).2.1.sequenced_states).map
           (fun q' => slookup sn q'.pending_samples) = some (some s)) ∧
    (∀ (st : GState) (s : Sample) (sid sn k : Nat) (q : SStateN) (v : Sample),
       st.global_pending_queries = 0 → st.retransmission = true →
       s.source_id = some sid → s.source_sn = some sn →
       getA sid st.sequenced_states = some q →
       q.last_delivered = some k → k < sn → sn ≠ k + 1 →
       slookup sn q.pending_samples = some v →
       (getA sid (handle_sample st s).2.1.sequenced_states).map
           (fun q' => slookup sn q'.pending_samples) = some (some s)) ∧
    (∀ (st : GState) (s : Sample) (t : Ts) (q : SStateT) (v : Sample),
       (s.source_id = none ∨ s.source_sn = none) → s.ts = some t →
       getA t.nid st.timestamped_states = some q →
       q.pending_samples.Pairwise tkeyLt →
       (match q.last_delivered with
        | some l => Ts.ltb l t
        | none => true) = true →
       ¬ (st.global_pending_queries = 0 ∧ q.pending_queries = 0) →
       tlookup t q.pending_samples = some v →
       (getA t.nid (handle_sample st s).2.1.timestamped_states).map
           (fun q' => tlookup t q'.pending_samples) = some (some v)) := by
  refine ⟨?_, ?_, ?_⟩
  · intro st s sid sn q v hg hid hsn hget hlk
    have heq : handle_sample st s = (false, { st with sequenced_states := setA sid ({ q with pending_samples := sinsert sn s q.pending_samples }) st.sequenced_states }, []) := by
      simp only [handle_sample, hid, hsn, hget, if_pos hg]
    rw [heq]
    simp [getA_setA_self, slookup_sinsert_self]
  · intro st s sid sn k q v hg hr hid hsn hget hld hlt hne hlk
    have hgz : ¬ st.global_pending_queries ≠ 0 := fun hh => hh hg
    have heq : handle_sample st s = (false, { st with sequenced_states := setA sid ({ q with pending_samples := sinsert sn s q.pending_samples }) st.sequenced_states }, []) := by
      simp only [handle_sample, hid, hsn, hget, if_neg hgz, hld, if_neg hne,
        if_pos hlt, if_pos hr]
    rw [heq]
    simp [getA_setA_self, slookup_sinsert_self]
  · intro st s t q v hnonseq hts hget hsorted hguard hz hlk
    have hzb : ¬ ((decide (st.global_pending_queries = 0) &&
        decide (q.pending_queries = 0)) = true) := by
      simp only [Bool.and_eq_true, decide_eq_true_eq]
      exact hz
    have heq : handle_sample st s = tsIngest st s t := by
      rcases hnonseq with h | h
      · cases hsn : s.source_sn <;> simp only [handle_sample, h, hsn, hts]
      · cases hid : s.source_id <;> simp only [handle_sample, hid, h, hts]
    rw [heq]
    have heq2 : tsIngest st s t = (false, { st with timestamped_states := setA t.nid ({ q with pending_samples := tinsertIfAbsent t s q.pending_samples }) st.timestamped_states }, []) := by
      simp only [tsIngest, hget, Option.getD_some]
      rw [if_pos hguard, if_neg hzb]
    rw [heq2]
    simp only [getA_setA_self, Option.map_some']
    rw [tlookup_tinsertIfAbsent_self hsorted hlk]

/-- C3 amended witness: the three paths exercised on concrete states (a
history-gated duplicate, a retransmission-buffer duplicate, a timestamped
duplicate). -/
theorem c3_amended_witness :
    ((getA 0 (handle_sample ⟨0, 1, [(0, ⟨none, 0, [(1, c3s1)]⟩)], [], false, []⟩ c3s2).2.1.sequenced_states).map
        (fun q' => slookup 1 q'.pending_samples) = some (some c3s2)) ∧
    ((getA 0 (handle_sample ⟨0, 0, [(0, ⟨some 1, 0, [(5, ⟨some 0, some 5, none, 9⟩)]⟩)], [], true, []⟩ ⟨some 0, some 5, none, 10⟩).2.1.sequenced_states).map
        (fun q' => slookup 5 q'.pending_samples) = some (some ⟨some 0, some 5, none, 10⟩)) ∧
    ((getA 2 (handle_sample ⟨0, 1, [], [(2, ⟨none, 0, [(⟨4, 2⟩, ⟨none, none, some ⟨4, 2⟩, 1⟩)]⟩)], false, []⟩ ⟨none, none, some ⟨4, 2⟩, 2⟩).2.1.timestamped_states).map
        (fun q' => tlookup ⟨4, 2⟩ q'.pending_samples) = some (some ⟨none, none, some ⟨4, 2⟩, 1⟩)) :=
  ⟨c3_amended.1 ⟨0, 1, [(0, ⟨none, 0, [(1, c3s1)]⟩)], [], false, []⟩ c3s2 0 1
      ⟨none, 0, [(1, c3s1)]⟩ c3s1 (by decide) (by decide) (by decide) (by decide)
      (by decide),
   c3_amended.2.1 ⟨0, 0, [(0, ⟨some 1, 0, [(5, ⟨some 0, some 5, none, 9⟩)]⟩)], [], true, []⟩
      ⟨some 0, some 5, none, 10⟩ 0 5 1 ⟨some 1, 0, [(5, ⟨some 0, some 5, none, 9⟩)]⟩
      ⟨some 0, some 5, none, 9⟩ (by decide) (by decide) (by decide) (by decide)
      (by decide) (by decide) (by decide) (by decide) (by decide),
   c3_amended.2.2 ⟨0, 1, [], [(2, ⟨none, 0, [(⟨4, 2⟩, ⟨none, none, some ⟨4, 2⟩, 1⟩)]⟩)], false, []⟩
      ⟨none, none, some ⟨4, 2⟩, 2⟩ ⟨4, 2⟩ ⟨none, 0, [(⟨4, 2⟩, ⟨none, none, some ⟨4, 2⟩, 1⟩)]⟩
      ⟨none, none, some ⟨4, 2⟩, 1⟩ (by decide) (by decide) (by decide) (by decide)
      (by decide) (by decide) (by decide)⟩

/- Claim C7 -/

theorem flush_src_pq (q : SStateN) (sid : Nat) (handlers : List Nat) :
    (flush_sequenced_source q sid handlers).1.pending_queries =
      q.pending_queries := by
  by_cases hc : q.pending_queries = 0 ∧ q.pending_samples ≠ []
  · rw [flush_src_eq_pos q sid handlers hc]
  · rw [flush_src_eq_neg q sid handlers hc]

/-- C7: releasing a reply-barrier guard when its counter is already 0
leaves it at 0 and never underflows: for every counter value `c` the value
after release is `c - 1` (saturating natural subtraction), for all three
guard classes. -/
theorem c7_saturating_release :
    (∀ st : GState,
       (stepEv st Ev.dropInitial).1.global_pending_queries =
         st.global_pending_queries - 1 ∧
       (st.global_pending_queries = 0 →
         (stepEv st Ev.dropInitial).1.global_pending_queries = 0)) ∧
    (∀ (st : GState) (sid : Nat) (q : SStateN),
       getA sid st.sequenced_states = some q →
       ∃ q', getA sid (stepEv st (Ev.dropSequenced sid)).1.sequenced_states = some q' ∧
         q'.pending_queries = q.pending_queries - 1 ∧
         (q.pending_queries = 0 → q'.pending_queries = 0)) ∧
    (∀ (st : GState) (nid : Nat) (q : SStateT),
       getA nid st.timestamped_states = some q →
       ∃ q', getA nid (stepEv st (Ev.dropTimestamped nid)).1.timestamped_states = some q' ∧
         q'.pending_queries = q.pending_queries - 1 ∧
         (q.pending_queries = 0 → q'.pending_queries = 0)) := by
  refine ⟨?_, ?_, ?_⟩
  · intro st
    constructor
    · simp only [stepEv]
      by_cases hgz : st.global_pending_queries - 1 = 0
      · rw [if_pos hgz]
      · rw [if_neg hgz]
    · intro h0
      simp only [stepEv]
      rw [if_pos (by omega)]
      dsimp only
      omega
  · intro st sid q hget
    simp only [stepEv]
    rw [hget]
    dsimp only
    by_cases hgz : st.global_pending_queries = 0
    · rw [if_pos hgz]
      refine ⟨_, getA_setA_self _ _ _, ?_, ?_⟩
      · rw [flush_src_pq]
      · intro h0
        rw [flush_src_pq]
        dsimp only
        omega
    · rw [if_neg hgz]
      refine ⟨_, getA_setA_self _ _ _, rfl, ?_⟩
      intro h0
      dsimp only
      omega
  · intro st nid q hget
    simp only [stepEv]
    rw [hget]
    dsimp only
    by_cases hgz : st.global_pending_queries = 0
    · rw [if_pos hgz]
      refine ⟨_, getA_setA_self _ _ _, ?_, ?_⟩
      · rw [flush_ts_pq]
      · intro h0
        rw [flush_ts_pq]
        dsimp only
        omega
    · rw [if_neg hgz]
      refine ⟨_, getA_setA_self _ _ _, rfl, ?_⟩
      intro h0
      dsimp only
      omega

/-- C7 witness: double release from counter 0 for all three guard classes
on a concrete state. -/
theorem c7_saturating_release_witness :
    ((stepEv ⟨0, 0, [(0, ⟨none, 0, []⟩)], [(1, ⟨none, 0, []⟩)], false, []⟩
        Ev.dropInitial).1.global_pending_queries = 0 - 1 ∧
     ((0 : Nat) = 0 →
       (stepEv ⟨0, 0, [(0, ⟨none, 0, []⟩)], [(1, ⟨none, 0, []⟩)], false, []⟩
          Ev.dropInitial).1.global_pending_queries = 0)) ∧
    (∃ q', getA 0 (stepEv ⟨0, 0, [(0, ⟨none, 0, []⟩)], [(1, ⟨none, 0, []⟩)], false, []⟩
        (Ev.dropSequenced 0)).1.sequenced_states = some q' ∧
      q'.pending_queries = 0 - 1 ∧ ((0 : Nat) = 0 → q'.pending_queries = 0)) ∧
    (∃ q', getA 1 (stepEv ⟨0, 0, [(0, ⟨none, 0, []⟩)], [(1, ⟨none, 0, []⟩)], false, []⟩
        (Ev.dropTimestamped 1)).1.timestamped_states = some q' ∧
      q'.pending_queries = 0 - 1 ∧ ((0 : Nat) = 0 → q'.pending_queries = 0)) :=
  ⟨c7_saturating_release.1 ⟨0, 0, [(0, ⟨none, 0, []⟩)], [(1, ⟨none, 0, []⟩)], false, []⟩,
   c7_saturating_release.2.1 ⟨0, 0, [(0, ⟨none, 0, []⟩)], [(1, ⟨none, 0, []⟩)], false, []⟩
     0 ⟨none, 0, []⟩ (by decide),
   c7_saturating_release.2.2 ⟨0, 0, [(0, ⟨none, 0, []⟩)], [(1, ⟨none, 0, []⟩)], false, []⟩
     1 ⟨none, 0, []⟩ (by decide)⟩

/- Claim C9 -/

/-- C9 counterexample trace: history enabled; a liveliness event raises
source 0's `pending_queries`; a history reply with `sn = 3` is buffered
under the global gate; the initial-replies guard drops (the per-source
flush is skipped because `pending_queries = 1`); a live sample `sn = 10`
is then delivered immediately (the sequenced live path only consults
`global_pending_queries`). -/
def c9trace : List Ev :=
  [Ev.livelinessSeq 0, Ev.sample ⟨some 0, some 3, none, 3⟩, Ev.dropInitial,
   Ev.sample ⟨some 0, some 10, none, 10⟩]

/-- C9 counterexample: after `c9trace`, source 0 has
`last_delivered = some 10` while key 3 is still present in its
`pending_samples` — and `3 > 10` is false, refuting invariant I1 as
stated. -/
theorem c9_counterexample :
    (getA 0 (runEv (initState true false) c9trace).1.sequenced_states).map
        (fun q => (q.last_delivered, slookup 3 q.pending_samples)) =
      some (some 10, some ⟨some 0, some 3, none, 3⟩) ∧ ¬ (10 < 3) := by
  decide

/-- C9 amended: provided the subscriber is built without history and no
malformed-liveliness fallback ever increments `global_pending_queries`
(so the counter stays 0), after every mutation every key buffered for a
sequenced source strictly exceeds that source's `last_delivered` when it
is set, and every timestamp buffered for a timestamped source strictly
exceeds its `last_delivered` in the HLC order. -/
theorem c9_amended (retr : Bool) (es : List Ev)
    (hne : ∀ e ∈ es, e ≠ Ev.livelinessBad) :
    (∀ (sid : Nat) (q : SStateN) (k j : Nat) (w : Sample),
       getA sid (runEv (initState false retr) es).1.sequenced_states = some q →
       q.last_delivered = some k → (j, w) ∈ q.pending_samples → k < j) ∧
    (∀ (nid : Nat) (q : SStateT) (u t : Ts) (w : Sample),
       getA nid (runEv (initState false retr) es).1.timestamped_states = some q →
       q.last_delivered = some u → (t, w) ∈ q.pending_samples →
       Ts.ltb u t = true) := by
  have hinv := runEv_inv9 es (initState false retr) (initState_WF false retr)
    ⟨rfl, by simp [initState], by simp [initState]⟩ hne
  constructor
  · intro sid q k j w hget hld hmem
    have := (hinv.2.1 _ (getA_mem hget)).2.2 k hld j w hmem
    omega
  · intro nid q u t w hget hld hmem
    exact (hinv.2.2 _ (getA_mem hget)).2 u hld t w hmem

/-- Trace for the C9 witness: deliver `sn = 1`, then buffer `sn = 3` on
the retransmission path. -/
def c9wtrace : List Ev :=
  [Ev.sample ⟨some 0, some 1, none, 1⟩, Ev.sample ⟨some 0, some 3, none, 3⟩]

/-- C9 amended witness: on the concrete trace `c9wtrace` (retransmission
on, no history), source 0 ends with `last_delivered = some 1` and key 3
buffered, and the amended invariant yields `1 < 3`. -/
theorem c9_amended_witness :
    (∀ e ∈ c9wtrace, e ≠ Ev.livelinessBad) ∧ 1 < 3 :=
  ⟨by decide,
   (c9_amended true c9wtrace (by decide)).1 0
     ⟨some 1, 0, [(3, ⟨some 0, some 3, none, 3⟩)]⟩ 1 3 ⟨some 0, some 3, none, 3⟩
     (by decide) (by decide) (by decide)⟩

/- Claim C10 -/

/-- C10: `handle_sample` returns `true` exactly when the sample is
sequenced (has both `source_id` and `source_sn`) and no `SourceState` for
that source id existed before the call; every timestamped sample (even one
creating a new timestamped state) and every orderless sample yields
`false`, so callers never arm the periodic prober for timestamped or
orderless sources from a live sample. -/
theorem c10_new_source_flag (st : GState) (s : Sample) :
    (handle_sample st s).1 = true ↔
      ∃ sid sn, s.source_id = some sid ∧ s.source_sn = some sn ∧
        getA sid st.sequenced_states = none := by
  cases hid : s.source_id with
  | some sid =>
    cases hsn : s.source_sn with
    | some sn =>
      cases hget : getA sid st.sequenced_states with
      | some q =>
        have hfst : (handle_sample st s).1 = false := by
          by_cases hg : st.global_pending_queries ≠ 0
          · simp only [handle_sample, hid, hsn, hget, if_pos hg]
          · cases hld : q.last_delivered with
            | none =>
              simp only [handle_sample, hid, hsn, hget, if_neg hg, hld,
                deliverDrain]
            | some k =>
              by_cases h1 : sn = k + 1
              · simp only [handle_sample, hid, hsn, hget, if_neg hg, hld,
                  if_pos h1, deliverDrain]
              · by_cases h2 : k < sn
                · by_cases hretr : st.retransmission
                  · simp only [handle_sample, hid, hsn, hget, if_neg hg, hld,
                      if_neg h1, if_pos h2, if_pos hretr]
                  · simp only [handle_sample, hid, hsn, hget, if_neg hg, hld,
                      if_neg h1, if_pos h2, if_neg hretr]
                · simp only [handle_sample, hid, hsn, hget, if_neg hg, hld,
                    if_neg h1, if_neg h2]
        rw [hfst]
        simp only [Bool.false_eq_true, false_iff]
        rintro ⟨sid', sn', hid', hsn', hget'⟩
        obtain rfl := Option.some.inj hid'
        rw [hget] at hget'
        exact Option.noConfusion hget'
      | none =>
        have hfst : (handle_sample st s).1 = true := by
          by_cases hg : st.global_pending_queries ≠ 0
          · simp only [handle_sample, hid, hsn, hget, if_pos hg]
          · simp only [handle_sample, hid, hsn, hget, if_neg hg, freshSeq,
              deliverDrain]
        rw [hfst]
        simp only [true_iff]
        exact ⟨sid, sn, rfl, rfl, hget⟩
    | none =>
      have hfst : (handle_sample st s).1 = false := by
        cases hts : s.ts with
        | some t =>
          have heq : handle_sample st s = tsIngest st s t := by
            simp only [handle_sample, hid, hsn, hts]
          rw [heq]
          simp only [tsIngest]
          split
          · split
            · rfl
            · rfl
          · rfl
        | none => simp only [handle_sample, hid, hsn, hts]
      rw [hfst]
      simp only [Bool.false_eq_true, false_iff]
      rintro ⟨sid', sn', _, hsn', _⟩
      exact Option.noConfusion hsn'
  | none =>
    have hfst : (handle_sample st s).1 = false := by
      cases hts : s.ts with
      | some t =>
        have heq : handle_sample st s = tsIngest st s t := by
          simp only [handle_sample, hid, hts]
        rw [heq]
        simp only [tsIngest]
        split
        · split
          · rfl
          · rfl
        · rfl
      | none => simp only [handle_sample, hid, hts]
    rw [hfst]
    simp only [Bool.false_eq_true, false_iff]
    rintro ⟨sid', sn', hid', _, _⟩
    exact Option.noConfusion hid'
